import Mathlib

/-!
Verification development for the Social-media-RAG trend-analysis pipeline.

Python text values are embedded as `List Char` (`Str`).  Regex-based
transformations from `src/pipeline/normalize.py` and `src/pipeline/features.py`
are embedded as specialised scanners that reproduce the behaviour of the
concrete patterns used by the source (`re.sub`/`findall` scan left to right,
never rescan replaced text, `{n,}` quantifiers are greedy).  Numeric pipeline
code working on floats is embedded over `ℚ` (alert gating, which only compares
and copies numbers) and over `ℝ` (trend scoring, which takes a square root).
-/

namespace SMRag

abbrev Str := List Char

/-- Whitespace class of the regex `\s` and of `str.strip()`, restricted to the
ASCII range that the pipeline's feeds produce. -/
def isPySpace (c : Char) : Bool :=
  c = ' ' || c = '\t' || c = '\n' || c = '\r' || c = '\x0b' || c = '\x0c'

/-- Python `str.strip()`: drop leading and trailing whitespace. -/
def pyStrip (s : Str) : Str :=
  ((s.dropWhile isPySpace).reverse.dropWhile isPySpace).reverse

/-- The substitution `re.sub(r'\s+', ' ', ·)`: every maximal run of whitespace
becomes a single blank. -/
def collapseRuns : Str → Str
  | [] => []
  | c :: cs =>
    if isPySpace c then ' ' :: collapseRuns (cs.dropWhile isPySpace)
    else c :: collapseRuns cs
termination_by s => s.length
decreasing_by
  · exact Nat.lt_succ_of_le (List.dropWhile_sublist _).length_le
  · simp

/-- Line 60 of `normalize.py`: `re.sub(r'\s+', ' ', text.strip())`. -/
def collapseWs (s : Str) : Str := collapseRuns (pyStrip s)

/-- Check that the first argument is a prefix of the second. -/
def startsWithStr : Str → Str → Bool
  | [], _ => true
  | _ :: _, [] => false
  | p :: ps, c :: cs => p = c && startsWithStr ps cs

def removedTag : Str := "[removed]".toList

def deletedTag : Str := "[deleted]".toList

/-- Line 63 of `normalize.py`: `re.sub(r'\[removed\]|\[deleted\]', '', text)`.
A single left-to-right pass; replaced text is not rescanned. -/
def removeTags : Str → Str
  | [] => []
  | c :: cs =>
    if startsWithStr removedTag (c :: cs) then removeTags ((c :: cs).drop 9)
    else if startsWithStr deletedTag (c :: cs) then removeTags ((c :: cs).drop 9)
    else c :: removeTags cs
termination_by s => s.length
decreasing_by
  · simp [List.drop_succ_cons]
    omega
  · simp [List.drop_succ_cons]
    omega
  · simp

/-- Generic embedding of `re.sub(r'[c]{k,}', rep, ·)`: a maximal run of at
least `k` copies of `c` is replaced by `rep`; shorter runs are untouched. -/
def collapseFrom (c : Char) (k : Nat) (rep : Str) : Str → Str
  | [] => []
  | a :: rest =>
    if a = c && startsWithStr (List.replicate (k - 1) c) rest then
      rep ++ collapseFrom c k rep (rest.dropWhile (· = c))
    else
      a :: collapseFrom c k rep rest
termination_by s => s.length
decreasing_by
  · exact Nat.lt_succ_of_le (List.dropWhile_sublist _).length_le
  · simp

/-- Line 66 of `normalize.py`: `re.sub(r'[!]{2,}', '!', text)`. -/
def bangCollapse : Str → Str := collapseFrom '!' 2 ['!']

/-- Line 67 of `normalize.py`: `re.sub(r'[?]{2,}', '?', text)`. -/
def questionCollapse : Str → Str := collapseFrom '?' 2 ['?']

/-- Line 68 of `normalize.py`: `re.sub(r'[.]{3,}', '...', text)`. -/
def dotCollapse : Str → Str := collapseFrom '.' 3 ['.', '.', '.']

/-- Python `str.replace(old, new)` for a non-empty `old`: replace all
non-overlapping occurrences, scanning left to right.  (For `old = []` the
source never calls it; we return the string unchanged.) -/
def pyReplace : Str → Str → Str → Str
  | [], _, _ => []
  | c :: cs, old, new =>
    if old ≠ [] ∧ startsWithStr old (c :: cs) = true then
      new ++ pyReplace ((c :: cs).drop old.length) old new
    else
      c :: pyReplace cs old new
termination_by s => s.length
decreasing_by
  · rename_i h
    have hlen : 1 ≤ old.length := by
      cases old with
      | nil => exact absurd rfl h.1
      | cons x xs => simp
    simp only [List.length_drop, List.length_cons]
    omega
  · simp

/-- The apostrophe character. -/
def sq : Char := Char.ofNat 39

/-- Line 72 of `normalize.py` reads
`text = text.replace(''', "'").replace(''', "'")`; the two bare `'''`
open and close a triple-quoted string, so the line parses as a single call
replacing the 15-character literal between them with an apostrophe.  This is
that literal. -/
def line72Pat : Str :=
  [',', ' ', '"', sq, '"', ')', '.', 'r', 'e', 'p', 'l', 'a', 'c', 'e', '(']

/-- Embedding of `ContentNormalizer.clean_text` (`normalize.py` lines 54-74):
strip and collapse whitespace, remove `[removed]`/`[deleted]` markers, collapse
punctuation runs, apply the two (degenerate) quote substitutions of lines
71-72, and truncate to 8000 characters. -/
def clean_text (text : Str) : Str :=
  if text = [] then []
  else
    let t1 := collapseWs text
    let t2 := removeTags t1
    let t3 := bangCollapse t2
    let t4 := questionCollapse t3
    let t5 := dotCollapse t4
    let t6 := pyReplace (pyReplace t5 ['"'] ['"']) ['"'] ['"']
    let t7 := pyReplace t6 line72Pat [sq]
    t7.take 8000

/-! Word characters and the tag scanners of `ContentNormalizer`.  The patterns
`#\w+` and `@\w+` (lines 50-51 of `normalize.py`) match a marker character
followed by a maximal non-empty run of word characters; `re.findall` scans left
to right and resumes after each match. -/

/-- The regex class `\w`, restricted to ASCII. -/
def isWordChar (c : Char) : Bool := c.isAlphanum || c = '_'

/-- All matches of `mark` followed by one or more word characters. -/
def findTagged (mark : Char) : Str → List Str
  | [] => []
  | c :: cs =>
    if c = mark && cs.takeWhile isWordChar ≠ [] then
      (c :: cs.takeWhile isWordChar) :: findTagged mark (cs.dropWhile isWordChar)
    else
      findTagged mark cs
termination_by s => s.length
decreasing_by
  · exact Nat.lt_succ_of_le (List.dropWhile_sublist _).length_le
  · simp

/-- Python `str.lower()` (ASCII model). -/
def pyLower (s : Str) : Str := s.map Char.toLower

/-- Embedding of `ContentNormalizer.extract_hashtags`. -/
def extract_hashtags (s : Str) : List Str := (findTagged '#' s).map pyLower

/-- Embedding of `ContentNormalizer.extract_mentions`. -/
def extract_mentions (s : Str) : List Str := (findTagged '@' s).map pyLower

/-! The canonical post record (`NormalizedPost` of `normalize.py`) and its
dictionary form used for database storage.  Timestamps are embedded as natural
numbers; `datetime.isoformat` / `datetime.fromisoformat` are embedded as an
injective decimal rendering and its parser, which is all the round-trip relies
on. -/

/-- The decimal digit character for `n < 10`. -/
def digitChar (n : Nat) : Char := Char.ofNat (48 + n)

/-- Fuelled most-significant-first decimal rendering; the fuel only serves
structural termination and never runs out when it exceeds the number. -/
def natStrAux : Nat → Nat → Str
  | 0, _ => []
  | fuel + 1, n =>
    if n < 10 then [digitChar n]
    else natStrAux fuel (n / 10) ++ [digitChar (n % 10)]

/-- Decimal digit string of a natural number. -/
def natStr (n : Nat) : Str := natStrAux (n + 1) n

/-- Embedding of `datetime.isoformat` on the timestamp embedding: an
injective decimal rendering, which is all the development relies on. -/
def isoformat (t : Nat) : Str := natStr t

/-- Embedding of `datetime.fromisoformat` on the timestamp embedding: the
decimal parser inverting `isoformat`. -/
def fromisoformat (s : Str) : Nat :=
  s.foldl (fun acc c => acc * 10 + (c.toNat - 48)) 0

/-- Python `','.join(l)`. -/
def joinComma : List Str → Str
  | [] => []
  | [x] => x
  | x :: y :: ys => x ++ ',' :: joinComma (y :: ys)

/-- Python `s.split(',')`. -/
def splitComma (s : Str) : List Str :=
  match h : s.dropWhile (· ≠ ',') with
  | [] => [s.takeWhile (· ≠ ',')]
  | _ :: rest => s.takeWhile (· ≠ ',') :: splitComma rest
termination_by s.length
decreasing_by
  have : (s.dropWhile (· ≠ ',')).length ≤ s.length :=
    (List.dropWhile_sublist _).length_le
  rw [h] at this
  simp at this
  omega

/-- The `NormalizedPost` dataclass of `normalize.py` lines 7-17. -/
structure NormalizedPost where
  id : Str
  platform : Str
  author : Option Str
  text : Str
  url : Option Str
  created_at : Nat
  hashtags : List Str
  entities : List Str
deriving DecidableEq

/-- The dictionary produced by `NormalizedPost.to_dict`: one string per
database column (`indexed_at` is filled in by the store). -/
structure PostDict where
  id : Str
  platform : Str
  author : Str
  text : Str
  url : Str
  created_at : Str
  hashtags : Str
  entities : Str
deriving DecidableEq

/-- Embedding of `NormalizedPost.to_dict` (lines 19-30): `None` author/url map
to the empty string, lists are comma-joined, the timestamp is rendered. -/
def NormalizedPost.to_dict (p : NormalizedPost) : PostDict :=
  { id := p.id
    platform := p.platform
    author := p.author.getD []
    text := p.text
    url := p.url.getD []
    created_at := isoformat p.created_at
    hashtags := joinComma p.hashtags
    entities := joinComma p.entities }

/-- Embedding of `NormalizedPost.from_dict` (lines 32-44): empty strings map
back to `None` for author/url and to `[]` for the lists (Python truthiness),
otherwise the comma-joined lists are split. -/
def NormalizedPost.from_dict (d : PostDict) : NormalizedPost :=
  { id := d.id
    platform := d.platform
    author := if d.author = [] then none else some d.author
    text := d.text
    url := if d.url = [] then none else some d.url
    created_at := fromisoformat d.created_at
    hashtags := if d.hashtags = [] then [] else splitComma d.hashtags
    entities := if d.entities = [] then [] else splitComma d.entities }

/-! Normalisation of source records (`normalize_reddit_post`,
`normalize_rss_entry`) and the posts-table upsert of `RSSIngester.save_post`. -/

/-- A Reddit submission as consumed by `normalize_reddit_post`: the attributes
the function reads, with `getattr` defaults already applied. -/
structure Submission where
  title : Str
  selftext : Str
  author : Option Str
  subId : Str
  permalink : Str
  created_utc : Nat
deriving DecidableEq

def nl2 : Str := ['\n', '\n']

/-- Embedding of `ContentNormalizer.normalize_reddit_post` (lines 91-126):
join title and selftext with a blank line, strip, reject when shorter than 10
characters, then clean and extract features.  Note the length gate tests the
text before `clean_text` is applied. -/
def normalize_reddit_post (s : Submission) : Option NormalizedPost :=
  let text := pyStrip (s.title ++ nl2 ++ s.selftext)
  if text = [] ∨ text.length < 10 then none
  else
    let cleaned := clean_text text
    let hashtags := extract_hashtags cleaned
    let mentions := extract_mentions cleaned
    some { id := "reddit_".toList ++ s.subId
           platform := "reddit".toList
           author := s.author
           text := cleaned
           url := some ("https://reddit.com".toList ++ s.permalink)
           created_at := s.created_utc
           hashtags := hashtags
           entities := hashtags ++ mentions }

/-- An RSS entry as consumed by `normalize_rss_entry`, with `getattr` defaults
already applied: `published` is the parsed `published_parsed` timestamp when
present and parseable, `entryId` is the entry's `id` attribute (empty when
missing). -/
structure RssEntry where
  title : Str
  summary : Str
  description : Str
  published : Option Nat
  entryId : Str
  link : Str
  author : Option Str
deriving DecidableEq

/-- Models CPython `hash((a, b))` on a pair of strings, as used for the post
id at `normalize.py` line 161.  CPython additionally salts string hashing per
process (`PYTHONHASHSEED`); this stand-in is the per-process function for one
fixed seed, which is the reading most favourable to id stability.  Only
determinism of the mixing matters to the development. -/
def pyHashPair (a b : Str) : Nat :=
  a.foldl (fun h c => h * 31 + c.toNat + 1) 7 * 1000003 +
    b.foldl (fun h c => h * 31 + c.toNat + 1) 7

/-- Embedding of `ContentNormalizer.normalize_rss_entry` (lines 132-172).
The publication date falls back to `datetime.now()` — the `now` argument —
when the entry carries no parseable `published_parsed`, and the post id is
derived from the builtin `hash` of the entry id (or link) paired with the
publication date's ISO rendering. -/
def normalize_rss_entry (now : Nat) (e : RssEntry) : Option NormalizedPost :=
  let body := if e.summary ≠ [] then e.summary else e.description
  let text := pyStrip (e.title ++ nl2 ++ body)
  if text = [] ∨ text.length < 10 then none
  else
    let cleaned := clean_text text
    let hashtags := extract_hashtags cleaned
    let mentions := extract_mentions cleaned
    let pub_date := e.published.getD now
    let entry_id := if e.entryId ≠ [] then e.entryId else e.link
    let post_id := "rss_".toList ++ natStr (pyHashPair entry_id (isoformat pub_date))
    some { id := post_id
           platform := "rss".toList
           author := e.author
           text := cleaned
           url := some e.link
           created_at := pub_date
           hashtags := hashtags
           entities := hashtags ++ mentions }

/-- One row of the `posts` table: the stored columns plus `indexed_at`
(defaulted to the insertion instant). -/
structure PostRow where
  cols : PostDict
  indexed_at : Nat
deriving DecidableEq

/-- Embedding of `RSSIngester.save_post` (`ingest_rss.py` lines 42-70):
`INSERT OR REPLACE` into `posts` keyed on the primary key `id`. -/
def save_post (store : List PostRow) (now : Nat) (p : NormalizedPost) : List PostRow :=
  let d := p.to_dict
  if store.any (fun q => q.cols.id = d.id) then
    store.map (fun q => if q.cols.id = d.id then ⟨d, now⟩ else q)
  else
    store ++ [⟨d, now⟩]

/-- One entry-processing step of `RSSIngester.ingest_feed` (lines 99-111),
restricted to the persistence-relevant part: normalize, then save.  (The
entity re-extraction between the two steps rewrites `entities` only and does
not affect the row identity.) -/
def ingest_rss_entry (store : List PostRow) (now : Nat) (e : RssEntry) : List PostRow :=
  match normalize_rss_entry now e with
  | none => store
  | some p => save_post store now p

/-! Feature extraction (`src/pipeline/features.py`).  The module's regex
patterns are embedded as dedicated left-to-right scanners.  `extract_entities`
is the function attached to ingested posts and drives trend counting. -/

/-- Embedding of `re.sub(r'<[^>]+>', ' ', ·)` (HTML_PATTERN, line 13): a `<`
followed by at least one non-`>` character and a closing `>` becomes a single
blank; an unclosed `<` is kept. -/
def htmlStrip : Str → Str
  | [] => []
  | c :: cs =>
    if c = '<' then
      let inner := cs.takeWhile (· ≠ '>')
      if inner ≠ [] ∧ inner.length < cs.length then
        ' ' :: htmlStrip (cs.drop (inner.length + 1))
      else c :: htmlStrip cs
    else c :: htmlStrip cs
termination_by s => s.length
decreasing_by
  · simp only [List.length_drop, List.length_cons]
    omega
  · simp
  · simp

/-- Middle characters of `WORD_PATTERN = (?i)\b[a-z][a-z0-9_'-]+[a-z0-9_]\b`
(line 11): letters, digits, underscore, dash, apostrophe. -/
def isWordMid (c : Char) : Bool := c.isAlphanum || c = '_' || c = '-' || c = sq

/-- Scanner for `WORD_PATTERN.findall`.  `prev` is the character before the
current position (`none` at the start); a match needs a word boundary, a
leading letter, then a greedy run of middle characters backtracked over
trailing dashes/apostrophes so that the match ends in `[a-z0-9_]` (the
boundary after the final character then holds automatically).  On failure the
scan advances one character, as `re.findall` does. -/
def wordFindall (prev : Option Char) : Str → List Str
  | [] => []
  | c :: cs =>
    if (match prev with | none => true | some p => !isWordChar p) && c.isAlpha then
      let run := cs.takeWhile isWordMid
      let kept := (run.reverse.dropWhile (fun d => d = '-' || d = sq)).reverse
      if 2 ≤ kept.length then
        (c :: kept) :: wordFindall kept.getLast? (cs.drop kept.length)
      else
        wordFindall (some c) cs
    else
      wordFindall (some c) cs
termination_by s => s.length
decreasing_by
  · simp only [List.length_drop, List.length_cons]
    omega
  · simp
  · simp

/-- Helper for the apostrophe-bearing stop words. -/
def ap (a b : String) : Str := a.toList ++ sq :: b.toList

/-- The stop-word set of `features.py` lines 16-40 (order is irrelevant: the
set is only queried for membership). -/
def STOP_WORDS : List Str :=
  (["i", "me", "my", "myself", "we", "our", "ours", "ourselves", "you",
    "your", "yours", "yourself", "yourselves", "he", "him", "his", "himself",
    "she", "her", "hers", "herself", "it", "its", "itself", "they", "them",
    "their", "theirs", "themselves", "what", "which", "who", "whom", "this",
    "that", "these", "those", "am", "is", "are", "was", "were", "be", "been",
    "being", "have", "has", "had", "having", "do", "does", "did", "doing",
    "a", "an", "the", "and", "but", "if", "or", "because", "as", "until",
    "while", "of", "at", "by", "for", "with", "about", "against", "between",
    "into", "through", "during", "before", "after", "above", "below", "to",
    "from", "up", "down", "in", "out", "on", "off", "over", "under", "again",
    "further", "then", "once", "here", "there", "when", "where", "why", "how",
    "all", "any", "both", "each", "few", "more", "most", "other", "some",
    "such", "no", "nor", "not", "only", "own", "same", "so", "than", "too",
    "very", "s", "t", "can", "will", "just", "don", "should", "now", "d",
    "ll", "m", "o", "re", "ve", "y", "ain", "aren", "couldn", "didn",
    "doesn", "hadn", "hasn", "haven", "isn", "ma", "mightn", "mustn",
    "needn", "shan", "shouldn", "wasn", "weren", "won", "wouldn",
    "http", "https", "www", "com", "html", "href", "span", "div", "class",
    "src", "alt", "img", "width", "height", "style", "rel", "id", "type",
    "content", "target", "title", "xmlns", "lang", "meta", "name", "value",
    "charset"].map String.toList) ++
  [ap "you" "re", ap "you" "ve", ap "you" "ll", ap "you" "d", ap "she" "s",
   ap "it" "s", ap "that" "ll", ap "don" "t", ap "should" "ve",
   ap "aren" "t", ap "couldn" "t", ap "didn" "t", ap "doesn" "t",
   ap "hadn" "t", ap "hasn" "t", ap "haven" "t", ap "isn" "t",
   ap "mightn" "t", ap "mustn" "t", ap "needn" "t", ap "shan" "t",
   ap "shouldn" "t", ap "wasn" "t", ap "weren" "t", ap "won" "t",
   ap "wouldn" "t"]

/-- The slang-normalisation mapping of `features.py` lines 43-62. -/
def INTERNET_SLANG : List (Str × Str) :=
  [("lol", "laugh_out_loud"), ("lmao", "laughing_my_ass_off"),
   ("rofl", "rolling_on_floor_laughing"), ("omg", "oh_my_god"),
   ("wtf", "what_the_f"), ("fml", "f_my_life"), ("tbh", "to_be_honest"),
   ("imo", "in_my_opinion"), ("imho", "in_my_humble_opinion"),
   ("afaik", "as_far_as_i_know"), ("irl", "in_real_life"),
   ("tl;dr", "too_long_didnt_read"), ("tldr", "too_long_didnt_read"),
   ("eli5", "explain_like_im_5"), ("ama", "ask_me_anything"),
   ("til", "today_i_learned"), ("ysk", "you_should_know"),
   ("psa", "public_service_announcement")].map
    (fun p => (p.1.toList, p.2.toList))

/-- The markup characters rejected by `tokenize` (`'<>{}[]()'`). -/
def markupChars : Str :=
  ['<', '>', Char.ofNat 123, Char.ofNat 125, '[', ']', '(', ')']

/-- The URL/HTML prefixes rejected by `tokenize`. -/
def urlStarts : List Str :=
  (["http", "www", "html", "src", "href"].map String.toList)

/-- Embedding of `tokenize` (`features.py` lines 64-98): strip HTML, find
words in the lowercased text, filter, normalise slang, and drop words
containing a dot. -/
def tokenize (text : Str) : List Str :=
  if text = [] then []
  else
    let words := wordFindall none (pyLower (htmlStrip text))
    ((words.filter (fun w =>
        (3 ≤ w.length &&
          !(STOP_WORDS.contains w) &&
          !(w.all Char.isDigit)) &&
        (!(markupChars.any (fun ch => w.contains ch)) &&
          !(urlStarts.any (fun p => startsWithStr p w))))).map
      (fun w => ((INTERNET_SLANG.find? (fun kv => kv.1 == w)).map (fun kv => kv.2)).getD w)).filter
      (fun nw => !nw.contains '.')

/-- First-occurrence key order of `collections.Counter`. -/
def uniqueKeys (l : List Str) : List Str :=
  l.foldl (fun acc w => if acc.contains w then acc else acc ++ [w]) []

/-- Embedding of `Counter(tokens).most_common(k)`: distinct tokens with their
counts, stably sorted by count descending, first `k` taken. -/
def most_common (k : Nat) (toks : List Str) : List (Str × Nat) :=
  (List.insertionSort (fun x y : Str × Nat => y.2 ≤ x.2)
    ((uniqueKeys toks).map (fun w => (w, toks.count w)))).take k

/-- Embedding of `extract_keywords` (`features.py` lines 140-160). -/
def extract_keywords (text : Str) (top_k : Nat) : List (Str × Nat) :=
  most_common top_k (tokenize text)

/-- The curated category alternations of `extract_entities` lines 195-203, in
dictionary order; within a pattern, alternatives are tried left to right. -/
def entityAlternatives : List (List Str) :=
  [["covid", "coronavirus", "pandemic", "vaccine", "pfizer", "moderna",
    "omicron", "delta"],
   ["climate", "global warming", "greenhouse", "carbon", "emission", "greta"],
   ["bitcoin", "crypto", "blockchain", "ethereum", "nft", "dogecoin", "elon"],
   ["trump", "biden", "election", "democrat", "republican", "congress",
    "senate"],
   ["apple", "google", "microsoft", "amazon", "meta", "twitter", "tiktok",
    "ai", "chatgpt"],
   ["nfl", "nba", "fifa", "olympics", "superbowl", "worldcup", "playoff"],
   ["netflix", "disney", "marvel", "starwars", "game of thrones",
    "stranger things"]].map (fun l => l.map String.toList)

/-- Case-insensitive literal prefix test. -/
def ciStartsWith : Str → Str → Bool
  | [], _ => true
  | _ :: _, [] => false
  | p :: ps, c :: cs => p.toLower = c.toLower && ciStartsWith ps cs

/-- Fuelled scanner for one pattern `(?i)\b(w1|w2|...)\b`: at a position whose
previous character is not a word character, alternatives are tried in order;
an alternative matches when it is a case-insensitive prefix and the character
after it is not a word character (regex backtracking tries the next
alternative when the trailing boundary fails).  The scan resumes after each
match.  The fuel equals the remaining length throughout, so it never runs
out; it only serves termination. -/
def findAltsAux (alts : List Str) : Nat → Option Char → Str → List Str
  | 0, _, _ => []
  | _ + 1, _, [] => []
  | fuel + 1, prev, c :: cs =>
    let boundary := match prev with | none => true | some p => !isWordChar p
    match if boundary then
        alts.find? (fun a =>
          ciStartsWith a (c :: cs) &&
            (match (c :: cs).drop a.length with
             | [] => true
             | d :: _ => !isWordChar d)) else none with
    | some a =>
      (c :: cs).take a.length ::
        findAltsAux alts (fuel - (a.length - 1)) ((c :: cs).take a.length).getLast?
          ((c :: cs).drop a.length)
    | none => findAltsAux alts fuel (some c) cs
termination_by fuel _ _ => fuel
decreasing_by
  · omega
  · omega

/-- All matches of the alternation pattern over a string. -/
def findAlts (alts : List Str) (s : Str) : List Str :=
  findAltsAux alts s.length none s

/-- Comparison used for the final `sorted(...)`: the lexicographic
(code-point) string order, as Python compares strings. -/
def strLeRel : Str → Str → Prop := fun a b => String.mk a ≤ String.mk b

instance : DecidableRel strLeRel :=
  fun a b => inferInstanceAs (Decidable (String.mk a ≤ String.mk b))

instance : IsTotal Str strLeRel := ⟨fun a b => le_total (String.mk a) (String.mk b)⟩

instance : IsTrans Str strLeRel := ⟨fun _ _ _ h1 h2 => le_trans h1 h2⟩

/-- Embedding of `extract_entities` (`features.py` lines 162-224): hashtag and
mention bodies, frequent keywords, curated category hits; union them, strip,
lowercase and filter each entry, and return the sorted de-duplicated list. -/
def extract_entities (text : Str) : List Str :=
  if text = [] then []
  else
    let t := htmlStrip text
    let hashtagBodies := (extract_hashtags t).filterMap
      (fun tag => if 1 < tag.length then some (tag.drop 1) else none)
    let mentionBodies := (extract_mentions t).filterMap
      (fun m => if 1 < m.length then some (m.drop 1) else none)
    let keywords := (extract_keywords t 5).filterMap
      (fun kf => if 2 ≤ kf.2 then some kf.1 else none)
    let patternHits :=
      (entityAlternatives.map (fun alts => (findAlts alts t).map pyLower)).flatten
    let entities := (hashtagBodies ++ mentionBodies ++ keywords ++ patternHits).dedup
    let cleaned := (entities.map (fun e => pyLower (pyStrip e))).filter
      (fun e =>
        (3 ≤ e.length && !(STOP_WORDS.contains e)) &&
          (!(e.all Char.isDigit) && (e ≠ [] && e.all Char.isAlphanum)))
    List.insertionSort strLeRel cleaned.dedup

/-! Alert persistence (`src/pages/3_🚨_Alerts.py`) and the alert gate of
`check_for_alerts` (`src/scripts/refresh_trends.py`).  Scores live in `ℚ`: the
gate only compares and copies numbers. -/

/-- One row of the `alert_history` table (page lines 24-35): autoincrement id,
`created_at` defaulted to the insertion instant, `status` defaulted to
`active`. -/
structure AlertRow where
  rid : Nat
  entity : String
  alert_type : String
  threshold_value : ℚ
  actual_value : ℚ
  message : String
  created_at : Int
  status : String
deriving DecidableEq

/-- The next `AUTOINCREMENT` id. -/
def nextAlertId (store : List AlertRow) : Nat :=
  (store.map (·.rid)).foldr max 0 + 1

/-- Embedding of `create_alert` (page lines 83-96): a plain `INSERT INTO
alert_history`; no uniqueness constraint or cooldown check is involved. -/
def create_alert (store : List AlertRow) (now : Int) (entity alert_type : String)
    (threshold_value actual_value : ℚ) (message : String) : List AlertRow :=
  store ++ [{ rid := nextAlertId store, entity := entity, alert_type := alert_type,
              threshold_value := threshold_value, actual_value := actual_value,
              message := message, created_at := now, status := "active" }]

/-- Active alerts currently persisted for a given `(entity, kind)` pair. -/
def activeAlertCount (store : List AlertRow) (entity kind : String) : Nat :=
  (store.filter
    (fun r => r.entity == entity && r.alert_type == kind && r.status == "active")).length

/-- One row of the `trends` table as read back by the alert gate. -/
structure TrendDbRow where
  entity : String
  platform : String
  current_count : Int
  trend_score : ℚ
  growth_rate : ℚ
  created_at : Int
deriving DecidableEq

/-- The selection query of `check_for_alerts` (`refresh_trends.py` lines
167-173): rows whose `trend_score` is at least the threshold and whose
`created_at` lies within the last hour, ordered by score descending, limited
to ten rows. -/
def selectHighTrends (now : Int) (threshold : ℚ) (rows : List TrendDbRow) :
    List TrendDbRow :=
  (List.insertionSort (fun a b : TrendDbRow => b.trend_score ≤ a.trend_score)
    (rows.filter (fun r => threshold ≤ r.trend_score && now - r.created_at < 3600))).take 10

/-- The alert-type determination of `check_for_alerts` (lines 205-211). -/
def classify_alert_type (score : ℚ) : String :=
  if 3 ≤ score then "viral_content"
  else if 5 / 2 ≤ score then "high_trend"
  else "moderate_trend"

/-- Embedding of the gate of `check_for_alerts` (lines 153-226): which trend
rows give rise to an alert and with which alert type.  (Sink dispatch and the
enabled-flag early exits do not change which rows qualify.) -/
def check_for_alerts (now : Int) (threshold : ℚ) (rows : List TrendDbRow) :
    List (TrendDbRow × String) :=
  (selectHighTrends now threshold rows).map
    (fun r => (r, classify_alert_type r.trend_score))

/-! Trend scoring (`src/pipeline/trends.py`, `TrendAnalyzer.calculate_trend_scores`
and `save_trends`).  Floats are embedded as reals; the one non-finite value the
code manipulates — `float('inf')` assigned to `growth_rate` when the baseline
is zero — is embedded by the `PyFloat` sum type, so that what reaches the
store is visible in the types. -/

/-- A Python float that is either finite or `float('inf')`. -/
inductive PyFloat where
  | fin (x : ℝ) : PyFloat
  | inf : PyFloat

/-- The test `growth_rate > 1.0` of line 153. -/
def growthGtOne : PyFloat → Prop
  | .fin x => 1 < x
  | .inf => True

/-- Python `min(growth_rate, 5)` of line 154. -/
noncomputable def pyMinFive : PyFloat → ℝ
  | .fin x => min x 5
  | .inf => 5

/-- Python `math.isinf`. -/
def PyFloat.isInf : PyFloat → Prop
  | .fin _ => False
  | .inf => True

open scoped Classical in
/-- The value persisted for `growth_rate` by `save_trends` (line 253):
`float(growth_rate) if not math.isinf(growth_rate) else 999.0`. -/
noncomputable def finitizeGrowth (g : PyFloat) : PyFloat :=
  if g.isInf then .fin 999 else g

/-- One merged row entering the scoring loop: aggregated current and baseline
counts of an entity on a platform (lines 99-111). -/
structure MergedRow where
  entity : String
  platform : String
  current_count : Int
  baseline_count : Int

/-- One scored row as appended to `results` (lines 160-170). -/
structure TrendRow where
  entity : String
  platform : String
  current_count : Int
  baseline_count : Int
  trend_score : ℝ
  growth_rate : PyFloat
  velocity : ℝ
  z_score : ℝ

/-- Mean of a list of reals, as `pandas.Series.mean`. -/
noncomputable def listMean (l : List ℝ) : ℝ := l.sum / l.length

/-- Sample standard deviation with one delta degree of freedom, as
`pandas.Series.std` computes it (the group loop skips groups with fewer than
two rows, where this would be undefined). -/
noncomputable def sampleStd (l : List ℝ) : ℝ :=
  Real.sqrt ((l.map (fun x => (x - listMean l) ^ 2)).sum / (l.length - 1))

/-- The growth-rate computation of lines 141-144. -/
noncomputable def rowGrowth (r : MergedRow) : PyFloat :=
  if 0 < r.baseline_count then
    .fin (((r.current_count : ℝ) - (r.baseline_count : ℝ)) / (r.baseline_count : ℝ))
  else if 0 < r.current_count then .inf
  else .fin 0

open scoped Classical in
/-- The per-row body of the scoring loop (lines 132-170): z-score against the
group statistics, growth rate, velocity, and the boosted trend score.  The
two boosts are applied sequentially to the running `trend_score`, exactly as
the source mutates it. -/
noncomputable def scoreRow (currentHours baselineHours baselineMean baselineStd : ℝ)
    (r : MergedRow) : TrendRow :=
  let z_score : ℝ := ((r.current_count : ℝ) - baselineMean) / baselineStd
  let growth_rate := rowGrowth r
  let velocity : ℝ := (r.current_count : ℝ) / currentHours
  let ts1 : ℝ := z_score
  let ts2 : ℝ := if growthGtOne growth_rate then ts1 * (1 + pyMinFive growth_rate) else ts1
  let ts3 : ℝ := if baselineMean / baselineHours < velocity then ts2 * (12 / 10) else ts2
  { entity := r.entity, platform := r.platform,
    current_count := r.current_count, baseline_count := r.baseline_count,
    trend_score := ts3, growth_rate := growth_rate,
    velocity := velocity, z_score := z_score }

/-- The baseline counts of a group, as reals. -/
noncomputable def groupBaselines (g : List MergedRow) : List ℝ :=
  g.map (fun r => (r.baseline_count : ℝ))

open scoped Classical in
/-- The group-level statistics and scoring of lines 126-170: baseline mean and
standard deviation over the group's baseline counts, the zero standard
deviation replaced by one, then every row scored. -/
noncomputable def scoreGroup (currentHours baselineHours : ℝ) (g : List MergedRow) :
    List TrendRow :=
  let m := listMean (groupBaselines g)
  let s0 := sampleStd (groupBaselines g)
  let s := if s0 = 0 then 1 else s0
  g.map (scoreRow currentHours baselineHours m s)

/-- Platforms in first-occurrence order, as `pandas.Series.unique`. -/
def uniquePlatforms (rows : List MergedRow) : List String :=
  rows.foldl (fun acc r => if acc.contains r.platform then acc else acc ++ [r.platform]) []

open scoped Classical in
/-- Embedding of `calculate_trend_scores` from the merged counts on (lines
107-180): drop rows below `min_count`, group by platform, skip groups smaller
than two, score each group, and sort the result by trend score descending. -/
noncomputable def calculate_trend_scores (currentHours baselineHours : ℝ)
    (minCount : Int) (merged : List MergedRow) : List TrendRow :=
  let kept := merged.filter (fun r => minCount ≤ r.current_count)
  let scored := (uniquePlatforms kept).flatMap (fun p =>
    let g := kept.filter (fun r => r.platform = p)
    if g.length < 2 then [] else scoreGroup currentHours baselineHours g)
  List.insertionSort (fun a b : TrendRow => b.trend_score ≤ a.trend_score) scored

/-- One row of the `trends` table as written by `save_trends` (lines 240-257):
the scored row with the growth rate made finite.  The stored field keeps the
`PyFloat` type so that the absence of infinities is a statement, not a
typing accident. -/
structure StoredTrend where
  entity : String
  platform : String
  current_count : Int
  baseline_count : Int
  trend_score : ℝ
  growth_rate : PyFloat
  velocity : ℝ
  z_score : ℝ

/-- The per-row insert of `save_trends` (lines 240-257). -/
noncomputable def savedRow (t : TrendRow) : StoredTrend :=
  { entity := t.entity, platform := t.platform,
    current_count := t.current_count, baseline_count := t.baseline_count,
    trend_score := t.trend_score, growth_rate := finitizeGrowth t.growth_rate,
    velocity := t.velocity, z_score := t.z_score }

/-- Embedding of `save_trends` on a batch. -/
noncomputable def save_trends (ts : List TrendRow) : List StoredTrend :=
  ts.map savedRow

/-! Auxiliary predicates used to reason about the cleaning pipeline. -/

/-- Length of the leading run of `c` in `s`. -/
def leadCount (c : Char) (s : Str) : Nat := (s.takeWhile (· = c)).length

/-- No position of `s` starts a run of `k` or more copies of `d`. -/
def noLongRun (d : Char) (k : Nat) (s : Str) : Prop :=
  ∀ i, leadCount d (s.drop i) < k

/-- Every whitespace character of `s` is a blank followed by a non-blank, and
`s` does not end in whitespace (leading whitespace is checked separately). -/
def tailOk : Str → Bool
  | [] => true
  | [c] => !isPySpace c
  | a :: b :: t => (!isPySpace a || (a = ' ' && !isPySpace b)) && tailOk (b :: t)

/-- The first character, if any, is not whitespace. -/
def headOk : Str → Bool
  | [] => true
  | c :: _ => !isPySpace c

/-- The last character, if any, is not whitespace. -/
def lastOk (s : Str) : Bool :=
  match s.getLast? with
  | none => true
  | some c => !isPySpace c

/-- The whitespace normal form produced by `collapseWs`. -/
def wsNormal (s : Str) : Prop := headOk s = true ∧ tailOk s = true

/-! Round-trip lemmas for the dictionary serialisation. -/

theorem digitChar_toNat (n : Nat) (h : n < 10) : (digitChar n).toNat = 48 + n := by
  interval_cases n <;> decide

theorem fromisoformat_append_digit (l : Str) (c : Char) :
    fromisoformat (l ++ [c]) = fromisoformat l * 10 + (c.toNat - 48) := by
  simp [fromisoformat, List.foldl_append]

theorem fromisoformat_natStrAux (fuel : Nat) :
    ∀ n, n < fuel → fromisoformat (natStrAux fuel n) = n := by
  induction fuel with
  | zero => intro n h; omega
  | succ fuel ih =>
    intro n h
    by_cases h10 : n < 10
    · simp [natStrAux, h10, fromisoformat, digitChar_toNat n h10]
    · have hd : n / 10 < fuel := by omega
      rw [natStrAux, if_neg h10, fromisoformat_append_digit, ih (n / 10) hd,
        digitChar_toNat (n % 10) (by omega)]
      omega

theorem fromisoformat_isoformat (t : Nat) : fromisoformat (isoformat t) = t :=
  fromisoformat_natStrAux (t + 1) t (by omega)

theorem takeWhile_append_stop (p : Char → Bool) (x : Str) (c : Char) (r : Str)
    (hx : ∀ a ∈ x, p a = true) (hc : p c = false) :
    (x ++ c :: r).takeWhile p = x := by
  induction x with
  | nil => simp [List.takeWhile_cons, hc]
  | cons a as ih =>
    have ha : p a = true := hx a (List.mem_cons_self a as)
    simp only [List.cons_append, List.takeWhile_cons, ha, if_true]
    rw [ih (fun b hb => hx b (List.mem_cons_of_mem a hb))]

theorem dropWhile_append_stop (p : Char → Bool) (x : Str) (c : Char) (r : Str)
    (hx : ∀ a ∈ x, p a = true) (hc : p c = false) :
    (x ++ c :: r).dropWhile p = c :: r := by
  induction x with
  | nil => simp [List.dropWhile_cons, hc]
  | cons a as ih =>
    have ha : p a = true := hx a (List.mem_cons_self a as)
    simp only [List.cons_append, List.dropWhile_cons, ha, if_true]
    exact ih (fun b hb => hx b (List.mem_cons_of_mem a hb))

theorem splitComma_all_sat (x : Str) (hx : ∀ a ∈ x, (a ≠ ',' : Bool) = true) :
    splitComma x = [x] := by
  have hdrop : x.dropWhile (fun a => (a ≠ ',' : Bool)) = [] :=
    List.dropWhile_eq_nil_iff.mpr hx
  have htake : x.takeWhile (fun a => (a ≠ ',' : Bool)) = x :=
    List.takeWhile_eq_self_iff.mpr hx
  rw [splitComma]
  split
  · rw [htake]
  · rename_i heq
    rw [hdrop] at heq
    exact absurd heq (by simp)

theorem splitComma_joinComma :
    ∀ l : List Str, l ≠ [] → (∀ x ∈ l, (',' : Char) ∉ x) →
      splitComma (joinComma l) = l := by
  intro l
  induction l with
  | nil => intro h; exact absurd rfl h
  | cons x t ih =>
    intro _ hmem
    have hx : ∀ a ∈ x, (a ≠ ',' : Bool) = true := by
      intro a ha
      have : a ≠ ',' := by
        intro hr
        exact hmem x (List.mem_cons_self x t) (hr ▸ ha)
      simpa using this
    cases t with
    | nil => exact splitComma_all_sat x hx
    | cons y ys =>
      have hjoin : joinComma (x :: y :: ys) = x ++ ',' :: joinComma (y :: ys) := rfl
      rw [hjoin, splitComma]
      split
      · rename_i heq
        rw [dropWhile_append_stop _ x ',' _ hx (by simp)] at heq
        exact absurd heq (by simp)
      · rename_i rest heq
        rw [dropWhile_append_stop _ x ',' _ hx (by simp)] at heq
        cases heq
        rw [takeWhile_append_stop _ x ',' _ hx (by simp)]
        rw [ih (by simp) (fun z hz => hmem z (List.mem_cons_of_mem x hz))]

theorem joinComma_ne_nil (l : List Str) (h : l ≠ []) (hne : ∀ x ∈ l, x ≠ []) :
    joinComma l ≠ [] := by
  cases l with
  | nil => exact absurd rfl h
  | cons x t =>
    cases t with
    | nil => exact hne x (List.mem_cons_self x [])
    | cons y ys =>
      have hx : x ≠ [] := hne x (List.mem_cons_self x _)
      cases x with
      | nil => exact absurd rfl hx
      | cons a as => simp [joinComma]

/-- C10: converting a normalized post to its stored dictionary form and back
reconstructs the post exactly, whenever the author and url are `none` or
non-empty and all hashtag/entity strings are non-empty and comma-free. -/
theorem post_to_dict_from_dict_roundtrip (p : NormalizedPost)
    (ha : p.author ≠ some []) (hu : p.url ≠ some [])
    (hh : ∀ x ∈ p.hashtags, x ≠ [] ∧ (',' : Char) ∉ x)
    (he : ∀ x ∈ p.entities, x ≠ [] ∧ (',' : Char) ∉ x) :
    NormalizedPost.from_dict p.to_dict = p := by
  obtain ⟨pid, platform, author, text, url, created_at, hashtags, entities⟩ := p
  simp only [NormalizedPost.to_dict, NormalizedPost.from_dict] at *
  congr 1
  · cases author with
    | none => simp
    | some a =>
      have : a ≠ [] := by
        intro hr
        exact ha (by simp [hr])
      simp [Option.getD, this]
  · cases url with
    | none => simp
    | some u =>
      have : u ≠ [] := by
        intro hr
        exact hu (by simp [hr])
      simp [Option.getD, this]
  · exact fromisoformat_isoformat created_at
  · cases hashtags with
    | nil => simp [joinComma]
    | cons x t =>
      have hne : joinComma (x :: t) ≠ [] :=
        joinComma_ne_nil _ (by simp) (fun z hz => (hh z hz).1)
      rw [if_neg hne]
      exact splitComma_joinComma _ (by simp) (fun z hz => (hh z hz).2)
  · cases entities with
    | nil => simp [joinComma]
    | cons x t =>
      have hne : joinComma (x :: t) ≠ [] :=
        joinComma_ne_nil _ (by simp) (fun z hz => (he z hz).1)
      rw [if_neg hne]
      exact splitComma_joinComma _ (by simp) (fun z hz => (he z hz).2)

/-- A concrete post exercising the round trip. -/
def rtPost : NormalizedPost :=
  { id := "rss_1".toList, platform := "rss".toList,
    author := some "bob".toList, text := "hello there world".toList,
    url := none, created_at := 1700000005,
    hashtags := ["#ai".toList], entities := ["ai".toList, "ml".toList] }

unseal splitComma in
/-- C10 witness: the round trip evaluated at a concrete post. -/
theorem post_roundtrip_witness :
    NormalizedPost.from_dict rtPost.to_dict = rtPost :=
  post_to_dict_from_dict_roundtrip rtPost (by decide) (by decide) (by decide) (by decide)

/-! The normalizer's minimum-length gate. -/

theorem length_gate_none_iff (T : Str) (v : NormalizedPost) :
    ((if T = [] ∨ T.length < 10 then none else some v) = none) ↔ T.length < 10 := by
  by_cases h : T.length < 10
  · simp [Or.inr h, h]
  · have hne : ¬(T = [] ∨ T.length < 10) := by
      rintro (rfl | hl)
      · exact h (by simp)
      · exact h hl
    have hT : T ≠ [] := by
      rintro rfl
      exact h (by simp)
    simp [hne, h, hT]

/-- C4 amended: the normalizer returns `None` exactly when the stripped
concatenation of title and body is shorter than 10 characters — the gate is
applied to the raw joined text, before the cleaning rules run. -/
theorem normalize_rejects_short_raw_text (s : Submission) (e : RssEntry) (now : Nat) :
    (normalize_reddit_post s = none ↔
      (pyStrip (s.title ++ nl2 ++ s.selftext)).length < 10) ∧
    (normalize_rss_entry now e = none ↔
      (pyStrip (e.title ++ nl2 ++
        if e.summary ≠ [] then e.summary else e.description)).length < 10) := by
  exact ⟨length_gate_none_iff _ _, length_gate_none_iff _ _⟩

/-- A submission whose raw joined text has 11 characters but whose cleaned
text collapses to 5. -/
def shortCleanSub : Submission :=
  { title := "a    b    c".toList, selftext := [], author := none,
    subId := "x1".toList, permalink := "/r/x".toList, created_utc := 0 }

unseal collapseRuns removeTags collapseFrom pyReplace findTagged in
/-- C4 counterexample: the normalizer produces a post whose post-cleaning
text has length 5 < 10, refuting the claim that no post with post-cleaning
text shorter than 10 characters is ever produced. -/
theorem normalizer_emits_short_cleaned_text :
    (normalize_reddit_post shortCleanSub).any (fun p => p.text.length < 10) = true := by
  decide

/-! Stability of the RSS post identity. -/

/-- An RSS entry with no parseable publication date. -/
def undatedEntry : RssEntry :=
  { title := "breaking news story today".toList, summary := [], description := [],
    published := none, entryId := "urn:item-1".toList, link := [], author := none }

unseal collapseRuns removeTags collapseFrom pyReplace findTagged in
/-- C5: ingesting the same undated RSS entry in two runs at different
wall-clock instants yields two `posts` rows, not one: the post id is derived
from `hash((entry_id, pub_date.isoformat()))` where `pub_date` falls back to
`datetime.now()`, so the id differs between the runs and the upsert cannot
collapse them.  (With a stable publication date the id is still only stable
within one interpreter process, since CPython salts string hashing.) -/
theorem rss_reingestion_duplicates_row :
    (ingest_rss_entry (ingest_rss_entry [] 100 undatedEntry) 200 undatedEntry).length = 2 := by
  decide

/-! Alert persistence: no deduplication exists. -/

/-- C6 counterexample: two qualifying trends for the same `(entity, kind)`
pair ten seconds apart produce two active persisted alerts — the second
insertion is not rejected, refuting the at-most-one-per-cooldown claim. -/
theorem alert_cooldown_counterexample :
    activeAlertCount
      (create_alert (create_alert [] 0 "ai" "trend_spike" 2 4 "m1")
        10 "ai" "trend_spike" 2 5 "m2")
      "ai" "trend_spike" = 2 := by
  decide

/-- C6 amended: `create_alert` performs a plain insert with no uniqueness or
cooldown check, so two qualifying trends for the same `(entity, kind)` —
however close in time — always add exactly two active alerts to whatever was
stored. -/
theorem create_alert_never_dedups (store : List AlertRow) (t1 t2 : Int)
    (entity kind : String) (thr1 act1 thr2 act2 : ℚ) (m1 m2 : String) :
    activeAlertCount
      (create_alert (create_alert store t1 entity kind thr1 act1 m1)
        t2 entity kind thr2 act2 m2) entity kind
      = activeAlertCount store entity kind + 2 := by
  simp [create_alert, activeAlertCount, List.filter_append]

/-! The alert gate of `check_for_alerts`. -/

/-- A fresh trend row with a huge mention count but a low trend score. -/
def lowScoreRow : TrendDbRow :=
  { entity := "ai", platform := "rss", current_count := 5000,
    trend_score := 1, growth_rate := 50, created_at := 0 }

/-- C9 counterexample: this fresh row meets the claim's volume disjunct
(`current_count` 5000 ≥ volume threshold 100), yet with the default score
threshold 2.0 the gate emits nothing for it — qualification tests only
`trend_score ≥ threshold`, and no row is ever labelled `trend_spike`. -/
theorem alert_gate_ignores_volume :
    check_for_alerts 0 2 [lowScoreRow] = [] ∧ (100 : Int) ≤ lowScoreRow.current_count := by
  constructor
  · decide
  · decide

/-- C9 amended: `check_for_alerts` alerts exactly on fresh rows whose
`trend_score` meets the threshold (at most ten, by score descending); each
alerted row is typed `viral_content` at score ≥ 3.0, `high_trend` at ≥ 2.5,
`moderate_trend` otherwise; `growth_rate` and `current_count` play no role in
qualification. -/
theorem alert_gate_score_only (now : Int) (threshold : ℚ) (rows : List TrendDbRow)
    (a : TrendDbRow × String) (hmem : a ∈ check_for_alerts now threshold rows) :
    threshold ≤ a.1.trend_score ∧
      a.2 = (if 3 ≤ a.1.trend_score then "viral_content"
             else if 5 / 2 ≤ a.1.trend_score then "high_trend"
             else "moderate_trend") := by
  obtain ⟨r, hr, rfl⟩ := List.mem_map.mp hmem
  refine ⟨?_, rfl⟩
  unfold selectHighTrends at hr
  have hmem2 := List.mem_of_mem_take hr
  have hmem3 := ((List.perm_insertionSort _ _).mem_iff).mp hmem2
  have hpred := List.of_mem_filter hmem3
  simp only [Bool.and_eq_true, decide_eq_true_eq] at hpred
  exact hpred.1

/-- A fresh trend row scoring 3.0. -/
def highScoreRow : TrendDbRow :=
  { entity := "ml", platform := "rss", current_count := 10,
    trend_score := 3, growth_rate := 0, created_at := 0 }

/-- C9 amended witness: the gate applied to the 3.0-score row, evaluated. -/
theorem alert_gate_score_only_witness :
    (2 : ℚ) ≤ (highScoreRow, "viral_content").1.trend_score ∧
      (highScoreRow, "viral_content").2 =
        (if 3 ≤ (highScoreRow, "viral_content").1.trend_score then "viral_content"
         else if 5 / 2 ≤ (highScoreRow, "viral_content").1.trend_score then "high_trend"
         else "moderate_trend") :=
  alert_gate_score_only 0 2 [highScoreRow] (highScoreRow, "viral_content") (by decide)

/-! Trend scoring: the boost structure, the z-score, and the persisted growth
rate.  Every row a scoring run persists is `savedRow (scoreRow ...)` applied
under `scoreGroup` (see `calculate_trend_scores` and `save_trends`). -/

open scoped Classical in
/-- C1: the trend score of every scored row starts from its z-score, is
multiplied by `1 + min(growth_rate, 5)` exactly when `growth_rate > 1.0`, and
is additionally multiplied by 1.2 exactly when the velocity exceeds
`baseline_mean / baseline_hours` — the two boosts compound multiplicatively. -/
theorem trend_score_boosts_compound (ch bh m s : ℝ) (r : MergedRow) :
    (scoreRow ch bh m s r).trend_score =
      (scoreRow ch bh m s r).z_score *
        (if growthGtOne (rowGrowth r) then 1 + pyMinFive (rowGrowth r) else 1) *
        (if m / bh < (r.current_count : ℝ) / ch then 12 / 10 else 1) := by
  simp only [scoreRow]
  by_cases h1 : growthGtOne (rowGrowth r) <;>
    by_cases h2 : m / bh < (r.current_count : ℝ) / ch <;>
      simp [h1, h2]

open scoped Classical in
/-- C2: for every group scored in a run, the persisted z-score of each row is
`(current_count − baseline_mean) / baseline_std`, where the statistics are the
mean and (sample) standard deviation of the group's baseline counts and a zero
standard deviation is replaced by one. -/
theorem zscore_matches_group_stats (ch bh : ℝ) (g : List MergedRow) :
    (save_trends (scoreGroup ch bh g)).map (fun t => t.z_score) =
      g.map (fun r => ((r.current_count : ℝ) - listMean (groupBaselines g)) /
        (if sampleStd (groupBaselines g) = 0 then 1 else sampleStd (groupBaselines g))) := by
  simp [save_trends, scoreGroup, savedRow, scoreRow, Function.comp]

open scoped Classical in
/-- C3: for every scored row, the growth rate that `save_trends` persists is
the finite value `(current − baseline) / baseline` when the baseline is
positive, the finite sentinel 999 when the baseline is zero and the current
count positive, and 0 otherwise — never an infinity. -/
theorem growth_rate_persisted_finite (ch bh m s : ℝ) (r : MergedRow) :
    (savedRow (scoreRow ch bh m s r)).growth_rate =
      PyFloat.fin
        (if 0 < r.baseline_count then
          ((r.current_count : ℝ) - (r.baseline_count : ℝ)) / (r.baseline_count : ℝ)
        else if 0 < r.current_count then 999 else 0) := by
  simp only [savedRow, scoreRow, finitizeGrowth, rowGrowth]
  by_cases h1 : 0 < r.baseline_count <;> by_cases h2 : 0 < r.current_count <;>
    simp [h1, h2, PyFloat.isInf]

/-! Entity extraction: determinism and normal form of the output. -/

/-- C7: entity extraction is deterministic — two evaluations on the same
string agree — and its output is sorted ascending in the lexicographic
(code-point) string order with no duplicate elements. -/
theorem extract_entities_deterministic_sorted_nodup (s : Str) :
    extract_entities s = extract_entities s ∧
      (extract_entities s).Sorted strLeRel ∧ (extract_entities s).Nodup := by
  refine ⟨rfl, ?_, ?_⟩
  · unfold extract_entities
    split
    · exact List.sorted_nil
    · exact List.sorted_insertionSort strLeRel _
  · unfold extract_entities
    split
    · exact List.nodup_nil
    · exact ((List.perm_insertionSort strLeRel _).nodup_iff).mpr (List.nodup_dedup _)

/-! Idempotence analysis of `clean_text`. -/

unseal collapseRuns removeTags collapseFrom pyReplace in
/-- C8 counterexample: cleaning is not idempotent — removing `[removed]`
leaves a double blank (`"a  b"`) that a second pass collapses to `"a b"`. -/
theorem clean_text_not_idempotent :
    clean_text (clean_text "a [removed] b".toList) ≠ clean_text "a [removed] b".toList := by
  decide

theorem startsWithStr_iff_append (p : Str) :
    ∀ s, startsWithStr p s = true ↔ ∃ t, s = p ++ t := by
  induction p with
  | nil => intro s; simp [startsWithStr]
  | cons a ps ih =>
    intro s
    cases s with
    | nil => simp [startsWithStr]
    | cons b t =>
      simp only [startsWithStr, Bool.and_eq_true, decide_eq_true_eq, ih t,
        List.cons_append, List.cons.injEq]
      constructor
      · rintro ⟨rfl, u, rfl⟩
        exact ⟨u, rfl, rfl⟩
      · rintro ⟨u, rfl, rfl⟩
        exact ⟨rfl, u, rfl⟩

theorem leadCount_cons_self (c : Char) (s : Str) :
    leadCount c (c :: s) = leadCount c s + 1 := by
  simp [leadCount, List.takeWhile_cons]

theorem leadCount_cons_ne (c b : Char) (s : Str) (h : ¬b = c) :
    leadCount c (b :: s) = 0 := by
  simp [leadCount, List.takeWhile_cons, h]

theorem startsWith_replicate_iff (c : Char) (j : Nat) :
    ∀ s, (startsWithStr (List.replicate j c) s = true ↔ j ≤ leadCount c s) := by
  induction j with
  | zero => intro s; simp [startsWithStr]
  | succ j ih =>
    intro s
    cases s with
    | nil =>
      simp [List.replicate_succ, startsWithStr, leadCount]
    | cons b t =>
      simp only [List.replicate_succ, startsWithStr, Bool.and_eq_true, decide_eq_true_eq]
      by_cases hb : c = b
      · subst hb
        rw [leadCount_cons_self]
        rw [ih t]
        constructor
        · rintro ⟨-, h⟩; omega
        · intro h; exact ⟨rfl, by omega⟩
      · rw [leadCount_cons_ne c b t (fun h => hb h.symm)]
        constructor
        · rintro ⟨h, -⟩; exact absurd h hb
        · intro h; omega

theorem takeWhile_eq_replicate_leadCount (c : Char) (s : Str) :
    s.takeWhile (· = c) = List.replicate (leadCount c s) c := by
  have hmem : ∀ b ∈ s.takeWhile (· = c), b = c := by
    intro b hb
    have := List.mem_takeWhile_imp hb
    simpa using this
  exact List.eq_replicate_length.mpr hmem

theorem leadCount_decomp (c : Char) (s : Str) :
    s = List.replicate (leadCount c s) c ++ s.dropWhile (· = c) := by
  conv_lhs => rw [← List.takeWhile_append_dropWhile (p := fun x => decide (x = c)) (l := s)]
  rw [← takeWhile_eq_replicate_leadCount]

theorem dropWhile_head_ne (c : Char) :
    ∀ (s : Str) (b : Char) (t : Str), s.dropWhile (· = c) = b :: t → ¬b = c := by
  intro s
  induction s with
  | nil => intro b t h; simp at h
  | cons a as ih =>
    intro b t h
    by_cases ha : a = c
    · rw [List.dropWhile_cons_of_pos (by simpa using ha)] at h
      exact ih b t h
    · rw [List.dropWhile_cons_of_neg (by simpa using ha)] at h
      cases h
      exact ha

theorem leadCount_replicate_append (c : Char) (n : Nat) (X : Str) :
    leadCount c (List.replicate n c ++ X) = n + leadCount c X := by
  induction n with
  | zero => simp
  | succ n ih =>
    rw [List.replicate_succ, List.cons_append, leadCount_cons_self, ih]
    omega

theorem leadCount_head_ne (c b : Char) (t : Str) (h : ¬b = c) :
    leadCount c (b :: t) = 0 := leadCount_cons_ne c b t h

theorem pyReplace_self (o : Str) (s : Str) : pyReplace s o o = s := by
  have key : ∀ n, ∀ s : Str, s.length ≤ n → pyReplace s o o = s := by
    intro n
    induction n with
    | zero =>
      intro s hs
      have hnil : s = [] := List.length_eq_zero.mp (by omega)
      subst hnil
      rw [pyReplace]
    | succ n ih =>
      intro s hs
      cases s with
      | nil => rw [pyReplace]
      | cons c cs =>
        rw [pyReplace]
        split
        · rename_i h
          obtain ⟨ho, hsw⟩ := h
          obtain ⟨t, ht⟩ := (startsWithStr_iff_append o (c :: cs)).mp hsw
          rw [ht, List.drop_left]
          have hlen : t.length ≤ n := by
            have h1 : 1 ≤ o.length := by
              cases o with
              | nil => exact absurd rfl ho
              | cons _ _ => simp
            have h2 : (c :: cs).length = o.length + t.length := by
              rw [ht, List.length_append]
            simp at h2 hs
            omega
          rw [ih t hlen]
        · rename_i h
          have : cs.length ≤ n := by simp at hs; omega
          rw [ih cs this]
  exact key s.length s le_rfl

theorem mem_of_startsWithStr (p s : Str) (h : startsWithStr p s = true) :
    ∀ x ∈ p, x ∈ s := by
  obtain ⟨t, rfl⟩ := (startsWithStr_iff_append p s).mp h
  intro x hx
  exact List.mem_append_left t hx

theorem pyReplace_of_not_mem (o new : Str) (x : Char) (hxo : x ∈ o) :
    ∀ s : Str, x ∉ s → pyReplace s o new = s := by
  have key : ∀ n, ∀ s : Str, s.length ≤ n → x ∉ s → pyReplace s o new = s := by
    intro n
    induction n with
    | zero =>
      intro s hs _
      have hnil : s = [] := List.length_eq_zero.mp (by omega)
      subst hnil
      rw [pyReplace]
    | succ n ih =>
      intro s hs hx
      cases s with
      | nil => rw [pyReplace]
      | cons c cs =>
        rw [pyReplace]
        split
        · rename_i h
          exact absurd (mem_of_startsWithStr o (c :: cs) h.2 x hxo) hx
        · have h1 : cs.length ≤ n := by simp at hs; omega
          have h2 : x ∉ cs := fun hm => hx (List.mem_cons_of_mem c hm)
          rw [ih cs h1 h2]
  exact fun s => key s.length s le_rfl

theorem removeTags_id (s : Str) (h : ('[' : Char) ∉ s) : removeTags s = s := by
  have key : ∀ n, ∀ s : Str, s.length ≤ n → ('[' : Char) ∉ s → removeTags s = s := by
    intro n
    induction n with
    | zero =>
      intro s hs _
      have hnil : s = [] := List.length_eq_zero.mp (by omega)
      subst hnil
      rw [removeTags]
    | succ n ih =>
      intro s hs hx
      cases s with
      | nil => rw [removeTags]
      | cons c cs =>
        have hcr : startsWithStr removedTag (c :: cs) = false := by
          cases hsw : startsWithStr removedTag (c :: cs)
          · rfl
          · exact absurd (mem_of_startsWithStr _ _ hsw '[' (by decide)) hx
        have hcd : startsWithStr deletedTag (c :: cs) = false := by
          cases hsw : startsWithStr deletedTag (c :: cs)
          · rfl
          · exact absurd (mem_of_startsWithStr _ _ hsw '[' (by decide)) hx
        rw [removeTags, if_neg (by rw [hcr]; exact fun h => absurd h (by simp)),
          if_neg (by rw [hcd]; exact fun h => absurd h (by simp))]
        have h1 : cs.length ≤ n := by simp at hs; omega
        have h2 : ('[' : Char) ∉ cs := fun hm => hx (List.mem_cons_of_mem c hm)
        rw [ih cs h1 h2]
  exact key s.length s le_rfl h

/-! Behaviour of the generic punctuation collapse. -/

theorem collapseFrom_nil (c : Char) (k : Nat) (rep : Str) :
    collapseFrom c k rep [] = [] := by
  rw [collapseFrom]

theorem collapseFrom_cons_fire (c : Char) (k : Nat) (rep : Str) (a : Char) (rest : Str)
    (h1 : a = c) (h2 : k - 1 ≤ leadCount c rest) :
    collapseFrom c k rep (a :: rest) =
      rep ++ collapseFrom c k rep (rest.dropWhile (· = c)) := by
  rw [collapseFrom, if_pos]
  simp only [Bool.and_eq_true, decide_eq_true_eq]
  exact ⟨h1, (startsWith_replicate_iff c (k - 1) rest).mpr h2⟩

theorem collapseFrom_cons_nofire (c : Char) (k : Nat) (rep : Str) (a : Char) (rest : Str)
    (h : ¬(a = c ∧ k - 1 ≤ leadCount c rest)) :
    collapseFrom c k rep (a :: rest) = a :: collapseFrom c k rep rest := by
  rw [collapseFrom, if_neg]
  simp only [Bool.and_eq_true, decide_eq_true_eq, startsWith_replicate_iff]
  exact h

theorem leadCount_nil (c : Char) : leadCount c [] = 0 := rfl

theorem leadCount_dropWhile_self (c : Char) (s : Str) :
    leadCount c (s.dropWhile (· = c)) = 0 := by
  cases hd : s.dropWhile (· = c) with
  | nil => exact leadCount_nil c
  | cons b t => exact leadCount_cons_ne c b t (dropWhile_head_ne c s b t hd)

theorem dropWhile_of_leadCount_zero (c : Char) (X : Str) (h : leadCount c X = 0) :
    X.dropWhile (· = c) = X := by
  cases X with
  | nil => rfl
  | cons b t =>
    by_cases hb : b = c
    · subst hb
      rw [leadCount_cons_self] at h
      omega
    · exact List.dropWhile_cons_of_neg (by simpa using hb)

theorem dropWhile_replicate_append (c : Char) (j : Nat) (X : Str) :
    (List.replicate j c ++ X).dropWhile (· = c) = X.dropWhile (· = c) := by
  induction j with
  | zero => simp
  | succ j ih =>
    rw [List.replicate_succ, List.cons_append, List.dropWhile_cons_of_pos (by simp)]
    exact ih

theorem leadCount_F_zero (c : Char) (k : Nat) (rep : Str) (X : Str)
    (h : leadCount c X = 0) : leadCount c (collapseFrom c k rep X) = 0 := by
  cases X with
  | nil => rw [collapseFrom_nil]; exact leadCount_nil c
  | cons b t =>
    have hb : ¬b = c := by
      intro hb
      subst hb
      rw [leadCount_cons_self] at h
      omega
    rw [collapseFrom_cons_nofire c k rep b t (fun hc => hb hc.1)]
    exact leadCount_cons_ne c b _ hb

theorem collapseFrom_pass (c : Char) (k m : Nat) :
    ∀ (r : Nat) (rest : Str), r < k → leadCount c rest = 0 →
      collapseFrom c k (List.replicate m c) (List.replicate r c ++ rest) =
        List.replicate r c ++ collapseFrom c k (List.replicate m c) rest := by
  intro r
  induction r with
  | zero => intro rest _ _; simp
  | succ r ih =>
    intro rest hr h0
    rw [List.replicate_succ, List.cons_append]
    rw [collapseFrom_cons_nofire c k _ c _ (by
      rintro ⟨-, hle⟩
      rw [leadCount_replicate_append, h0] at hle
      omega)]
    rw [ih rest (by omega) h0]
    rfl

theorem collapseFrom_fire_whole (c : Char) (k m : Nat) (n : Nat) (rest : Str)
    (hk : 1 ≤ k) (hn : k ≤ n) (h0 : leadCount c rest = 0) :
    collapseFrom c k (List.replicate m c) (List.replicate n c ++ rest) =
      List.replicate m c ++ collapseFrom c k (List.replicate m c) rest := by
  have hn1 : n = (n - 1) + 1 := by omega
  rw [hn1, List.replicate_succ, List.cons_append]
  rw [collapseFrom_cons_fire c k _ c _ rfl (by
    rw [leadCount_replicate_append, h0]
    omega)]
  rw [dropWhile_replicate_append, dropWhile_of_leadCount_zero c rest h0]

theorem collapseFrom_idem (c : Char) (k m : Nat) (hm : 1 ≤ m) (hmk : m ≤ k) (hk : 2 ≤ k) :
    ∀ s : Str,
      collapseFrom c k (List.replicate m c) (collapseFrom c k (List.replicate m c) s) =
        collapseFrom c k (List.replicate m c) s := by
  have key : ∀ N, ∀ s : Str, s.length ≤ N →
      collapseFrom c k (List.replicate m c) (collapseFrom c k (List.replicate m c) s) =
        collapseFrom c k (List.replicate m c) s := by
    intro N
    induction N with
    | zero =>
      intro s hs
      have hnil : s = [] := List.length_eq_zero.mp (by omega)
      subst hnil
      rw [collapseFrom_nil, collapseFrom_nil]
    | succ N ih =>
      intro s hs
      have hdec := leadCount_decomp c s
      have h0 : leadCount c (s.dropWhile (· = c)) = 0 := leadCount_dropWhile_self c s
      by_cases hn0 : leadCount c s = 0
      · cases s with
        | nil => rw [collapseFrom_nil, collapseFrom_nil]
        | cons b t =>
          have hb : ¬b = c := by
            intro hb
            subst hb
            rw [leadCount_cons_self] at hn0
            omega
          rw [collapseFrom_cons_nofire c k _ b t (fun hc => hb hc.1)]
          rw [collapseFrom_cons_nofire c k _ b _ (fun hc => hb hc.1)]
          rw [ih t (by simp at hs; omega)]
      · by_cases hnk : leadCount c s < k
        · conv_lhs => rw [hdec]
          conv_rhs => rw [hdec]
          rw [collapseFrom_pass c k m _ _ hnk h0]
          have h0f := leadCount_F_zero c k (List.replicate m c) _ h0
          rw [collapseFrom_pass c k m _ _ hnk h0f]
          have hlen : (s.dropWhile (· = c)).length ≤ N := by
            have h1 : s.length = leadCount c s + (s.dropWhile (· = c)).length := by
              conv_lhs => rw [hdec]
              simp
            omega
          rw [ih _ hlen]
        · conv_lhs => rw [hdec]
          conv_rhs => rw [hdec]
          rw [collapseFrom_fire_whole c k m _ _ (by omega) (by omega) h0]
          have h0f := leadCount_F_zero c k (List.replicate m c) _ h0
          have hlen : (s.dropWhile (· = c)).length ≤ N := by
            have h1 : s.length = leadCount c s + (s.dropWhile (· = c)).length := by
              conv_lhs => rw [hdec]
              simp
            omega
          by_cases hmlt : m < k
          · rw [collapseFrom_pass c k m _ _ hmlt h0f, ih _ hlen]
          · have hmeq : k ≤ m := by omega
            rw [collapseFrom_fire_whole c k m _ _ (by omega) hmeq h0f, ih _ hlen]
  exact fun s => key s.length s le_rfl

/-! Facts about `noLongRun`. -/

theorem noLongRun_nil (d : Char) (j : Nat) (hj : 1 ≤ j) : noLongRun d j [] := by
  intro i
  rw [List.drop_nil, leadCount_nil]
  omega

theorem noLongRun_tail (d : Char) (j : Nat) (a : Char) (t : Str)
    (h : noLongRun d j (a :: t)) : noLongRun d j t := by
  intro i
  have := h (i + 1)
  simpa [List.drop_succ_cons] using this

theorem noLongRun_drop (d : Char) (j : Nat) (s : Str) (i0 : Nat)
    (h : noLongRun d j s) : noLongRun d j (s.drop i0) := by
  intro i
  rw [List.drop_drop]
  have := h (i + i0)
  rwa [Nat.add_comm i i0] at this

theorem noLongRun_cons_ne (d : Char) (j : Nat) (b : Char) (t : Str)
    (hj : 1 ≤ j) (hb : ¬b = d) (h : noLongRun d j t) : noLongRun d j (b :: t) := by
  intro i
  cases i with
  | zero => rw [List.drop_zero, leadCount_cons_ne d b t hb]; omega
  | succ i => rw [List.drop_succ_cons]; exact h i

theorem noLongRun_run_append_self (c : Char) (k : Nat) (n : Nat) (X : Str)
    (hn : n < k) (h0 : leadCount c X = 0) (hX : noLongRun c k X) :
    noLongRun c k (List.replicate n c ++ X) := by
  intro i
  rw [List.drop_append_eq_append_drop, List.drop_replicate]
  simp only [List.length_replicate]
  by_cases hi : i < n
  · have h2 : i - n = 0 := by omega
    rw [h2, List.drop_zero, leadCount_replicate_append, h0]
    omega
  · have h2 : n - i = 0 := by omega
    rw [h2, List.replicate_zero, List.nil_append]
    exact hX (i - n)

theorem noLongRun_run_append_other (d c : Char) (j : Nat) (n : Nat) (X : Str)
    (hj : 1 ≤ j) (hdc : ¬c = d) (hX : noLongRun d j X) :
    noLongRun d j (List.replicate n c ++ X) := by
  induction n with
  | zero => simpa using hX
  | succ n ih =>
    rw [List.replicate_succ, List.cons_append]
    exact noLongRun_cons_ne d j c _ hj hdc ih

theorem collapseFrom_id_of_noLongRun (c : Char) (k : Nat) (rep : Str) :
    ∀ s : Str, noLongRun c k s → collapseFrom c k rep s = s := by
  have key : ∀ N, ∀ s : Str, s.length ≤ N → noLongRun c k s →
      collapseFrom c k rep s = s := by
    intro N
    induction N with
    | zero =>
      intro s hs _
      have hnil : s = [] := List.length_eq_zero.mp (by omega)
      subst hnil
      rw [collapseFrom_nil]
    | succ N ih =>
      intro s hs hnr
      cases s with
      | nil => rw [collapseFrom_nil]
      | cons a rest =>
        rw [collapseFrom_cons_nofire c k rep a rest (by
          rintro ⟨rfl, hle⟩
          have := hnr 0
          rw [List.drop_zero, leadCount_cons_self] at this
          omega)]
        rw [ih rest (by simp at hs; omega) (noLongRun_tail c k a rest hnr)]
  exact fun s => key s.length s le_rfl

theorem noLongRun_collapseFrom_self (c : Char) (k m : Nat) (hm : 1 ≤ m) (hmk : m < k)
    (hk : 2 ≤ k) :
    ∀ s : Str, noLongRun c k (collapseFrom c k (List.replicate m c) s) := by
  have key : ∀ N, ∀ s : Str, s.length ≤ N →
      noLongRun c k (collapseFrom c k (List.replicate m c) s) := by
    intro N
    induction N with
    | zero =>
      intro s hs
      have hnil : s = [] := List.length_eq_zero.mp (by omega)
      subst hnil
      rw [collapseFrom_nil]
      exact noLongRun_nil c k (by omega)
    | succ N ih =>
      intro s hs
      have hdec := leadCount_decomp c s
      have h0 : leadCount c (s.dropWhile (· = c)) = 0 := leadCount_dropWhile_self c s
      have h0f := leadCount_F_zero c k (List.replicate m c) _ h0
      by_cases hn0 : leadCount c s = 0
      · cases s with
        | nil =>
          rw [collapseFrom_nil]
          exact noLongRun_nil c k (by omega)
        | cons b t =>
          have hb : ¬b = c := by
            intro hb
            subst hb
            rw [leadCount_cons_self] at hn0
            omega
          rw [collapseFrom_cons_nofire c k _ b t (fun hc => hb hc.1)]
          exact noLongRun_cons_ne c k b _ (by omega) hb (ih t (by simp at hs; omega))
      · obtain ⟨n, rest, hdec2, h02, hn2⟩ :
            ∃ n rest, s = List.replicate n c ++ rest ∧ leadCount c rest = 0 ∧
              n = leadCount c s :=
          ⟨leadCount c s, s.dropWhile (· = c), leadCount_decomp c s,
            leadCount_dropWhile_self c s, rfl⟩
        subst hdec2
        have hn1 : 1 ≤ n := by
          rw [leadCount_replicate_append, h02] at hn0 hn2
          omega
        have hlen : rest.length ≤ N := by
          rw [List.length_append, List.length_replicate] at hs
          omega
        have h0f2 := leadCount_F_zero c k (List.replicate m c) _ h02
        by_cases hnk : n < k
        · rw [collapseFrom_pass c k m _ _ hnk h02]
          exact noLongRun_run_append_self c k _ _ hnk h0f2 (ih _ hlen)
        · rw [collapseFrom_fire_whole c k m _ _ (by omega) (by omega) h02]
          exact noLongRun_run_append_self c k _ _ hmk h0f2 (ih _ hlen)
  exact fun s => key s.length s le_rfl

theorem leadCount_collapseFrom_other (d c : Char) (k m : Nat) (hm : 1 ≤ m)
    (hdc : ¬c = d) :
    ∀ X : Str, leadCount d (collapseFrom c k (List.replicate m c) X) = leadCount d X := by
  have key : ∀ N, ∀ X : Str, X.length ≤ N →
      leadCount d (collapseFrom c k (List.replicate m c) X) = leadCount d X := by
    intro N
    induction N with
    | zero =>
      intro X hs
      have hnil : X = [] := List.length_eq_zero.mp (by omega)
      subst hnil
      rw [collapseFrom_nil]
    | succ N ih =>
      intro X hs
      cases X with
      | nil => rw [collapseFrom_nil]
      | cons a r =>
        by_cases hfire : a = c ∧ k - 1 ≤ leadCount c r
        · rw [collapseFrom_cons_fire c k _ a r hfire.1 hfire.2]
          have hm1 : m = (m - 1) + 1 := by omega
          rw [hm1, List.replicate_succ, List.cons_append]
          rw [leadCount_cons_ne d c _ hdc, leadCount_cons_ne d a r (hfire.1 ▸ hdc)]
        · rw [collapseFrom_cons_nofire c k _ a r hfire]
          by_cases ha : a = d
          · subst ha
            rw [leadCount_cons_self, leadCount_cons_self, ih r (by simp at hs; omega)]
          · rw [leadCount_cons_ne d a _ ha, leadCount_cons_ne d a r ha]
  exact fun X => key X.length X le_rfl

theorem noLongRun_collapseFrom_other (d c : Char) (j k m : Nat) (hm : 1 ≤ m)
    (hj : 1 ≤ j) (hk : 1 ≤ k) (hdc : ¬c = d) :
    ∀ s : Str, noLongRun d j s → noLongRun d j (collapseFrom c k (List.replicate m c) s) := by
  have key : ∀ N, ∀ s : Str, s.length ≤ N → noLongRun d j s →
      noLongRun d j (collapseFrom c k (List.replicate m c) s) := by
    intro N
    induction N with
    | zero =>
      intro s hs _
      have hnil : s = [] := List.length_eq_zero.mp (by omega)
      subst hnil
      rw [collapseFrom_nil]
      exact noLongRun_nil d j hj
    | succ N ih =>
      intro s hs hnr
      have hdec := leadCount_decomp c s
      have h0 : leadCount c (s.dropWhile (· = c)) = 0 := leadCount_dropWhile_self c s
      by_cases hn0 : leadCount c s = 0
      · cases s with
        | nil =>
          rw [collapseFrom_nil]
          exact noLongRun_nil d j hj
        | cons b t =>
          have hb : ¬b = c := by
            intro hb
            subst hb
            rw [leadCount_cons_self] at hn0
            omega
          rw [collapseFrom_cons_nofire c k _ b t (fun hc => hb hc.1)]
          by_cases hbd : b = d
          · intro i
            cases i with
            | zero =>
              rw [List.drop_zero, hbd, leadCount_cons_self,
                leadCount_collapseFrom_other d c k m hm hdc t]
              have := hnr 0
              rw [List.drop_zero, hbd, leadCount_cons_self] at this
              omega
            | succ i =>
              rw [List.drop_succ_cons]
              exact ih t (by simp at hs; omega) (noLongRun_tail d j b t hnr) i
          · exact noLongRun_cons_ne d j b _ hj hbd
              (ih t (by simp at hs; omega) (noLongRun_tail d j b t hnr))
      · obtain ⟨n, rest, hdec2, h02, hn2⟩ :
            ∃ n rest, s = List.replicate n c ++ rest ∧ leadCount c rest = 0 ∧
              n = leadCount c s :=
          ⟨leadCount c s, s.dropWhile (· = c), leadCount_decomp c s,
            leadCount_dropWhile_self c s, rfl⟩
        subst hdec2
        have hn1 : 1 ≤ n := by
          rw [leadCount_replicate_append, h02] at hn0 hn2
          omega
        have hlen : rest.length ≤ N := by
          rw [List.length_append, List.length_replicate] at hs
          omega
        have hrest : noLongRun d j rest := by
          have hdw : rest = (List.replicate n c ++ rest).drop n := by
            simp
          rw [hdw]
          exact noLongRun_drop d j _ _ hnr
        by_cases hnk : n < k
        · rw [collapseFrom_pass c k m _ _ hnk h02]
          exact noLongRun_run_append_other d c j _ _ hj hdc (ih _ hlen hrest)
        · rw [collapseFrom_fire_whole c k m _ _ (by omega) (by omega) h02]
          exact noLongRun_run_append_other d c j _ _ hj hdc (ih _ hlen hrest)
  exact fun s => key s.length s le_rfl

/-! Whitespace normal form of `collapseWs`. -/

theorem collapseRuns_nil : collapseRuns [] = [] := by rw [collapseRuns]

theorem collapseRuns_cons_space (c : Char) (cs : Str) (h : isPySpace c = true) :
    collapseRuns (c :: cs) = ' ' :: collapseRuns (cs.dropWhile isPySpace) := by
  rw [collapseRuns, if_pos h]

theorem collapseRuns_cons_nonspace (c : Char) (cs : Str) (h : isPySpace c = false) :
    collapseRuns (c :: cs) = c :: collapseRuns cs := by
  rw [collapseRuns, if_neg (by simp [h])]

theorem collapseRuns_ne_nil (s : Str) (h : s ≠ []) : collapseRuns s ≠ [] := by
  cases s with
  | nil => exact absurd rfl h
  | cons c cs =>
    cases hc : isPySpace c with
    | false => rw [collapseRuns_cons_nonspace c cs hc]; simp
    | true => rw [collapseRuns_cons_space c cs hc]; simp

theorem dropWhile_head_pred (p : Char → Bool) :
    ∀ (s : Str) (b : Char) (t : Str), s.dropWhile p = b :: t → p b = false := by
  intro s
  induction s with
  | nil => intro b t h; simp at h
  | cons a as ih =>
    intro b t h
    by_cases ha : p a = true
    · rw [List.dropWhile_cons_of_pos ha] at h
      exact ih b t h
    · rw [List.dropWhile_cons_of_neg (by simpa using ha)] at h
      cases h
      simpa using ha

theorem tailOk_tail (a : Char) (t : Str) (h : tailOk (a :: t) = true) :
    tailOk t = true := by
  cases t with
  | nil => rfl
  | cons b r =>
    simp only [tailOk, Bool.and_eq_true] at h
    exact h.2

theorem tailOk_dropWhile (p : Char → Bool) (s : Str) (h : tailOk s = true) :
    tailOk (s.dropWhile p) = true := by
  induction s with
  | nil => simpa using h
  | cons a t ih =>
    by_cases hp : p a = true
    · rw [List.dropWhile_cons_of_pos hp]
      exact ih (tailOk_tail a t h)
    · rw [List.dropWhile_cons_of_neg (by simpa using hp)]
      exact h

theorem lastOk_cons_cons (a b : Char) (t : Str) :
    lastOk (a :: b :: t) = lastOk (b :: t) := by
  simp only [lastOk, List.getLast?_cons_cons]

theorem lastOk_of_tailOk (s : Str) (h : tailOk s = true) : lastOk s = true := by
  induction s with
  | nil => rfl
  | cons a t ih =>
    cases t with
    | nil =>
      simp only [tailOk] at h
      simp only [lastOk, List.getLast?_singleton]
      exact h
    | cons b r =>
      rw [lastOk_cons_cons]
      exact ih (tailOk_tail a _ h)

theorem lastOk_spaces_false (c : Char) (cs : Str) (hc : isPySpace c = true)
    (hall : ∀ x ∈ cs, isPySpace x = true) : lastOk (c :: cs) = false := by
  have hne : (c :: cs) ≠ [] := by simp
  have hl : (c :: cs).getLast? = some ((c :: cs).getLast hne) :=
    List.getLast?_eq_getLast _ hne
  have hmem : (c :: cs).getLast hne ∈ c :: cs := List.getLast_mem hne
  have hsp : isPySpace ((c :: cs).getLast hne) = true := by
    rcases List.mem_cons.mp hmem with h | h
    · rw [h]; exact hc
    · exact hall _ h
  simp only [lastOk, hl, hsp]
  rfl

theorem getLast?_append_ne_nil (l1 l2 : Str) (h : l2 ≠ []) :
    (l1 ++ l2).getLast? = l2.getLast? := by
  rw [List.getLast?_eq_head?_reverse, List.reverse_append, List.head?_append,
    List.getLast?_eq_head?_reverse]
  cases h2 : l2.reverse.head? with
  | none =>
    have : l2.reverse = [] := by
      cases hrev : l2.reverse with
      | nil => rfl
      | cons x v => rw [hrev] at h2; simp at h2
    have : l2 = [] := by simpa using congrArg List.reverse this
    exact absurd this h
  | some x => simp

theorem getLast?_dropWhile_ne_nil (p : Char → Bool) (l : Str)
    (h : l.dropWhile p ≠ []) : (l.dropWhile p).getLast? = l.getLast? := by
  conv_rhs => rw [← List.takeWhile_append_dropWhile (p := p) (l := l)]
  rw [getLast?_append_ne_nil _ _ h]

theorem tailOk_collapseRuns (s : Str) (hlast : lastOk s = true) :
    tailOk (collapseRuns s) = true := by
  have key : ∀ N, ∀ s : Str, s.length ≤ N → lastOk s = true →
      tailOk (collapseRuns s) = true := by
    intro N
    induction N with
    | zero =>
      intro s hs _
      have hnil : s = [] := List.length_eq_zero.mp (by omega)
      subst hnil
      rw [collapseRuns_nil]
      rfl
    | succ N ih =>
      intro s hs hlast
      cases s with
      | nil => rw [collapseRuns_nil]; rfl
      | cons c cs =>
        cases hc : isPySpace c with
        | false =>
          rw [collapseRuns_cons_nonspace c cs hc]
          cases cs with
          | nil =>
            rw [collapseRuns_nil]
            simp only [tailOk, hc]
            rfl
          | cons b t =>
            have hne : collapseRuns (b :: t) ≠ [] := collapseRuns_ne_nil _ (by simp)
            obtain ⟨d, u, hdu⟩ := List.exists_cons_of_ne_nil hne
            rw [hdu]
            simp only [tailOk, Bool.and_eq_true]
            refine ⟨by simp [hc], ?_⟩
            rw [← hdu]
            have hlcs : lastOk (b :: t) = true := by
              rw [lastOk_cons_cons] at hlast
              exact hlast
            exact ih (b :: t) (by simp only [List.length_cons] at hs ⊢; omega) hlcs
        | true =>
          rw [collapseRuns_cons_space c cs hc]
          have hWne : cs.dropWhile isPySpace ≠ [] := by
            intro hWnil
            have hall : ∀ x ∈ cs, isPySpace x = true :=
              List.dropWhile_eq_nil_iff.mp hWnil
            rw [lastOk_spaces_false c cs hc hall] at hlast
            simp at hlast
          obtain ⟨b, t, hbt⟩ := List.exists_cons_of_ne_nil hWne
          have hbs : isPySpace b = false := dropWhile_head_pred isPySpace cs b t hbt
          obtain ⟨u, hu⟩ : ∃ u, collapseRuns (cs.dropWhile isPySpace) = b :: u := by
            rw [hbt, collapseRuns_cons_nonspace b t hbs]
            exact ⟨collapseRuns t, rfl⟩
          rw [hu]
          simp only [tailOk, Bool.and_eq_true]
          have hsp : isPySpace ' ' = true := by decide
          refine ⟨by simp [hsp, hbs], ?_⟩
          rw [← hu]
          have hlW : lastOk (cs.dropWhile isPySpace) = true := by
            simp only [lastOk, getLast?_dropWhile_ne_nil isPySpace cs hWne]
            have hcsne : cs ≠ [] := by
              intro hcsnil
              rw [hcsnil] at hWne
              simp at hWne
            obtain ⟨x, v, hxv⟩ := List.exists_cons_of_ne_nil hcsne
            rw [hxv]
            rw [hxv] at hlast
            rw [lastOk_cons_cons] at hlast
            simpa [lastOk] using hlast
          have hlenW : (cs.dropWhile isPySpace).length ≤ N := by
            have := (List.dropWhile_sublist (l := cs) isPySpace).length_le
            simp at hs
            omega
          exact ih _ hlenW hlW
  exact key s.length s le_rfl hlast

theorem headOk_collapseRuns (s : Str) (h : headOk s = true) :
    headOk (collapseRuns s) = true := by
  cases s with
  | nil => rw [collapseRuns_nil]; rfl
  | cons c cs =>
    have hc : isPySpace c = false := by
      simp only [headOk] at h
      simpa using h
    rw [collapseRuns_cons_nonspace c cs hc]
    simp only [headOk]
    simp [hc]

theorem headOk_dropWhile_space (s : Str) : headOk (s.dropWhile isPySpace) = true := by
  cases hd : s.dropWhile isPySpace with
  | nil => rfl
  | cons b t =>
    simp only [headOk]
    simp [dropWhile_head_pred isPySpace s b t hd]

theorem headOk_iff (s : Str) :
    headOk s = true ↔ ∀ b, s.head? = some b → isPySpace b = false := by
  cases s <;> simp [headOk]

theorem lastOk_iff (s : Str) :
    lastOk s = true ↔ ∀ b, s.getLast? = some b → isPySpace b = false := by
  cases h : s.getLast? <;> simp [lastOk, h]

theorem headOk_pyStrip (s : Str) : headOk (pyStrip s) = true := by
  rw [pyStrip, headOk_iff]
  intro b hb
  rw [List.head?_reverse] at hb
  have hne : (s.dropWhile isPySpace).reverse.dropWhile isPySpace ≠ [] := by
    intro hnil
    rw [hnil] at hb
    simp at hb
  rw [getLast?_dropWhile_ne_nil isPySpace _ hne] at hb
  rw [List.getLast?_eq_head?_reverse, List.reverse_reverse] at hb
  exact (headOk_iff _).mp (headOk_dropWhile_space s) b hb

theorem lastOk_pyStrip (s : Str) : lastOk (pyStrip s) = true := by
  rw [pyStrip, lastOk_iff]
  intro b hb
  rw [List.getLast?_eq_head?_reverse, List.reverse_reverse] at hb
  cases hv : (s.dropWhile isPySpace).reverse.dropWhile isPySpace with
  | nil => rw [hv] at hb; simp at hb
  | cons x t =>
    rw [hv] at hb
    simp only [List.head?_cons, Option.some.injEq] at hb
    rw [← hb]
    exact dropWhile_head_pred isPySpace _ x t hv

theorem wsNormal_collapseWs (s : Str) : wsNormal (collapseWs s) :=
  ⟨headOk_collapseRuns _ (headOk_pyStrip s), tailOk_collapseRuns _ (lastOk_pyStrip s)⟩

theorem collapseRuns_id_of_tailOk (s : Str) (h : tailOk s = true) :
    collapseRuns s = s := by
  induction s with
  | nil => exact collapseRuns_nil
  | cons c cs ih =>
    cases hc : isPySpace c with
    | false =>
      rw [collapseRuns_cons_nonspace c cs hc, ih (tailOk_tail c cs h)]
    | true =>
      cases cs with
      | nil =>
        simp only [tailOk, hc] at h
        simp at h
      | cons b t =>
        simp only [tailOk, hc, Bool.not_true, Bool.false_or, Bool.and_eq_true,
          decide_eq_true_eq, Bool.not_eq_true'] at h
        obtain ⟨⟨hcsp, hbs⟩, htail⟩ := h
        rw [collapseRuns_cons_space c _ hc,
          List.dropWhile_cons_of_neg (by simp [hbs]),
          ih htail, hcsp]

theorem collapseWs_id (s : Str) (h : wsNormal s) : collapseWs s = s := by
  obtain ⟨hhead, htail⟩ := h
  have h1 : s.dropWhile isPySpace = s := by
    cases s with
    | nil => rfl
    | cons c cs =>
      simp only [headOk] at hhead
      exact List.dropWhile_cons_of_neg (by simpa using hhead)
  have hlast := lastOk_of_tailOk s htail
  have h2 : s.reverse.dropWhile isPySpace = s.reverse := by
    cases hrev : s.reverse with
    | nil => rfl
    | cons b t =>
      have hb : s.getLast? = some b := by
        rw [← List.head?_reverse, hrev]
        rfl
      simp only [lastOk, hb] at hlast
      exact List.dropWhile_cons_of_neg (by simpa using hlast)
  rw [collapseWs, pyStrip, h1, h2, List.reverse_reverse]
  exact collapseRuns_id_of_tailOk s htail

/-! The punctuation collapses preserve the whitespace normal form, do not add
new characters, and do not grow the string. -/

theorem collapseFrom_ne_nil (c : Char) (k m : Nat) (hm : 1 ≤ m) (s : Str)
    (h : s ≠ []) : collapseFrom c k (List.replicate m c) s ≠ [] := by
  cases s with
  | nil => exact absurd rfl h
  | cons a rest =>
    by_cases hf : a = c ∧ k - 1 ≤ leadCount c rest
    · rw [collapseFrom_cons_fire c k _ a rest hf.1 hf.2]
      have : List.replicate m c ≠ [] := by
        cases m with
        | zero => omega
        | succ m => simp [List.replicate_succ]
      simp [this]
    · rw [collapseFrom_cons_nofire c k _ a rest hf]
      simp

theorem head?_collapseFrom (c : Char) (k m : Nat) (hm : 1 ≤ m) (s : Str) :
    (collapseFrom c k (List.replicate m c) s).head? = s.head? := by
  cases s with
  | nil => rw [collapseFrom_nil]
  | cons a rest =>
    by_cases hf : a = c ∧ k - 1 ≤ leadCount c rest
    · rw [collapseFrom_cons_fire c k _ a rest hf.1 hf.2]
      have hm1 : m = (m - 1) + 1 := by omega
      rw [hm1, List.replicate_succ, List.cons_append]
      simp [hf.1]
    · rw [collapseFrom_cons_nofire c k _ a rest hf]
      rfl

theorem headOk_collapseFrom (c : Char) (k m : Nat) (hm : 1 ≤ m) (s : Str)
    (h : headOk s = true) : headOk (collapseFrom c k (List.replicate m c) s) = true := by
  rw [headOk_iff]
  intro b hb
  rw [head?_collapseFrom c k m hm s] at hb
  exact (headOk_iff s).mp h b hb

theorem tailOk_cons_nonspace (a : Char) (Y : Str) (ha : isPySpace a = false)
    (hY : tailOk Y = true) : tailOk (a :: Y) = true := by
  cases Y with
  | nil => simp only [tailOk, ha]; rfl
  | cons d u =>
    simp only [tailOk, ha, Bool.and_eq_true]
    exact ⟨by simp, hY⟩

theorem tailOk_append_nonspace (l1 X : Str) (h1 : ∀ x ∈ l1, isPySpace x = false)
    (hX : tailOk X = true) : tailOk (l1 ++ X) = true := by
  induction l1 with
  | nil => simpa using hX
  | cons a l1' ih =>
    have ha : isPySpace a = false := h1 a (List.mem_cons_self a l1')
    have htl := ih (fun x hx => h1 x (List.mem_cons_of_mem a hx))
    rw [List.cons_append]
    exact tailOk_cons_nonspace a _ ha htl

theorem tailOk_collapseFrom (c : Char) (k m : Nat) (hm : 1 ≤ m)
    (hcs : isPySpace c = false) (s : Str) (h : tailOk s = true) :
    tailOk (collapseFrom c k (List.replicate m c) s) = true := by
  have key : ∀ N, ∀ s : Str, s.length ≤ N → tailOk s = true →
      tailOk (collapseFrom c k (List.replicate m c) s) = true := by
    intro N
    induction N with
    | zero =>
      intro s hs _
      have hnil : s = [] := List.length_eq_zero.mp (by omega)
      subst hnil
      rw [collapseFrom_nil]
      rfl
    | succ N ih =>
      intro s hs htl
      cases s with
      | nil => rw [collapseFrom_nil]; rfl
      | cons a rest =>
        by_cases hf : a = c ∧ k - 1 ≤ leadCount c rest
        · rw [collapseFrom_cons_fire c k _ a rest hf.1 hf.2]
          refine tailOk_append_nonspace _ _ ?_ ?_
          · intro x hx
            rw [List.eq_of_mem_replicate hx]
            exact hcs
          · have hW : tailOk (rest.dropWhile (· = c)) = true :=
              tailOk_dropWhile _ rest (tailOk_tail a rest htl)
            have hWlen : (rest.dropWhile (· = c)).length ≤ N := by
              have := (List.dropWhile_sublist (l := rest) (fun x => decide (x = c))).length_le
              simp only [List.length_cons] at hs
              omega
            exact ih _ hWlen hW
        · rw [collapseFrom_cons_nofire c k _ a rest hf]
          cases rest with
          | nil =>
            rw [collapseFrom_nil]
            exact htl
          | cons b t =>
            have hne := collapseFrom_ne_nil c k m hm (b :: t) (by simp)
            obtain ⟨d, u, hdu⟩ := List.exists_cons_of_ne_nil hne
            have hd : d = b := by
              have := head?_collapseFrom c k m hm (b :: t)
              rw [hdu] at this
              simpa using this
            subst hd
            rw [hdu]
            simp only [tailOk, Bool.and_eq_true] at htl ⊢
            refine ⟨htl.1, ?_⟩
            rw [← hdu]
            exact ih (d :: t) (by simp only [List.length_cons] at hs ⊢; omega) htl.2
  exact key s.length s le_rfl h

theorem mem_collapseRuns (s : Str) (x : Char) (h : x ∈ collapseRuns s) :
    x ∈ s ∨ x = ' ' := by
  have key : ∀ N, ∀ s : Str, s.length ≤ N → x ∈ collapseRuns s → x ∈ s ∨ x = ' ' := by
    intro N
    induction N with
    | zero =>
      intro s hs hx
      have hnil : s = [] := List.length_eq_zero.mp (by omega)
      subst hnil
      rw [collapseRuns_nil] at hx
      simp at hx
    | succ N ih =>
      intro s hs hx
      cases s with
      | nil => rw [collapseRuns_nil] at hx; simp at hx
      | cons c cs =>
        cases hc : isPySpace c with
        | false =>
          rw [collapseRuns_cons_nonspace c cs hc] at hx
          rcases List.mem_cons.mp hx with rfl | hx2
          · exact Or.inl (List.mem_cons_self _ _)
          · rcases ih cs (by simp at hs; omega) hx2 with h2 | h2
            · exact Or.inl (List.mem_cons_of_mem c h2)
            · exact Or.inr h2
        | true =>
          rw [collapseRuns_cons_space c cs hc] at hx
          rcases List.mem_cons.mp hx with rfl | hx2
          · exact Or.inr rfl
          · have hlen : (cs.dropWhile isPySpace).length ≤ N := by
              have := (List.dropWhile_sublist (l := cs) isPySpace).length_le
              simp at hs
              omega
            rcases ih _ hlen hx2 with h2 | h2
            · exact Or.inl (List.mem_cons_of_mem c
                (List.dropWhile_subset (l := cs) isPySpace h2))
            · exact Or.inr h2
  exact key s.length s le_rfl h

theorem mem_pyStrip (s : Str) (x : Char) (h : x ∈ pyStrip s) : x ∈ s := by
  rw [pyStrip] at h
  rw [List.mem_reverse] at h
  have h2 := List.dropWhile_subset (l := (s.dropWhile isPySpace).reverse) isPySpace h
  rw [List.mem_reverse] at h2
  exact List.dropWhile_subset (l := s) isPySpace h2

theorem mem_collapseWs (s : Str) (x : Char) (h : x ∈ collapseWs s) :
    x ∈ s ∨ x = ' ' := by
  rw [collapseWs] at h
  rcases mem_collapseRuns _ x h with h2 | h2
  · exact Or.inl (mem_pyStrip s x h2)
  · exact Or.inr h2

theorem mem_collapseFrom (c : Char) (k : Nat) (rep : Str) (s : Str) (x : Char)
    (h : x ∈ collapseFrom c k rep s) : x ∈ s ∨ x ∈ rep := by
  have key : ∀ N, ∀ s : Str, s.length ≤ N → x ∈ collapseFrom c k rep s →
      x ∈ s ∨ x ∈ rep := by
    intro N
    induction N with
    | zero =>
      intro s hs hx
      have hnil : s = [] := List.length_eq_zero.mp (by omega)
      subst hnil
      rw [collapseFrom_nil] at hx
      simp at hx
    | succ N ih =>
      intro s hs hx
      cases s with
      | nil => rw [collapseFrom_nil] at hx; simp at hx
      | cons a rest =>
        by_cases hf : a = c ∧ k - 1 ≤ leadCount c rest
        · rw [collapseFrom_cons_fire c k _ a rest hf.1 hf.2] at hx
          rcases List.mem_append.mp hx with h2 | h2
          · exact Or.inr h2
          · have hlen : (rest.dropWhile (· = c)).length ≤ N := by
              have := (List.dropWhile_sublist (l := rest) (fun x => decide (x = c))).length_le
              simp at hs
              omega
            rcases ih _ hlen h2 with h3 | h3
            · exact Or.inl (List.mem_cons_of_mem a
                (List.dropWhile_subset (l := rest) _ h3))
            · exact Or.inr h3
        · rw [collapseFrom_cons_nofire c k _ a rest hf] at hx
          rcases List.mem_cons.mp hx with rfl | h2
          · exact Or.inl (List.mem_cons_self _ _)
          · rcases ih rest (by simp at hs; omega) h2 with h3 | h3
            · exact Or.inl (List.mem_cons_of_mem a h3)
            · exact Or.inr h3
  exact key s.length s le_rfl h

theorem length_collapseRuns_le (s : Str) : (collapseRuns s).length ≤ s.length := by
  have key : ∀ N, ∀ s : Str, s.length ≤ N → (collapseRuns s).length ≤ s.length := by
    intro N
    induction N with
    | zero =>
      intro s hs
      have hnil : s = [] := List.length_eq_zero.mp (by omega)
      subst hnil
      rw [collapseRuns_nil]
    | succ N ih =>
      intro s hs
      cases s with
      | nil => rw [collapseRuns_nil]
      | cons c cs =>
        cases hc : isPySpace c with
        | false =>
          rw [collapseRuns_cons_nonspace c cs hc]
          have := ih cs (by simp at hs; omega)
          simp only [List.length_cons]
          omega
        | true =>
          rw [collapseRuns_cons_space c cs hc]
          have h1 := (List.dropWhile_sublist (l := cs) isPySpace).length_le
          have h2 := ih (cs.dropWhile isPySpace) (by simp at hs; omega)
          simp only [List.length_cons]
          omega
  exact key s.length s le_rfl

theorem length_pyStrip_le (s : Str) : (pyStrip s).length ≤ s.length := by
  rw [pyStrip]
  have h1 := (List.dropWhile_sublist (l := s) isPySpace).length_le
  have h2 := (List.dropWhile_sublist (l := (s.dropWhile isPySpace).reverse) isPySpace).length_le
  simp only [List.length_reverse] at *
  omega

theorem length_collapseWs_le (s : Str) : (collapseWs s).length ≤ s.length := by
  rw [collapseWs]
  have h1 := length_collapseRuns_le (pyStrip s)
  have h2 := length_pyStrip_le s
  omega

theorem length_dropWhile_eq (p : Char → Bool) (t : Str) :
    (t.dropWhile p).length = t.length - (t.takeWhile p).length := by
  have h := congrArg List.length (List.takeWhile_append_dropWhile (p := p) (l := t))
  rw [List.length_append] at h
  omega

theorem length_collapseFrom_le (c : Char) (k m : Nat) (hmk : m ≤ k) (hk : 1 ≤ k)
    (s : Str) : (collapseFrom c k (List.replicate m c) s).length ≤ s.length := by
  have key : ∀ N, ∀ s : Str, s.length ≤ N →
      (collapseFrom c k (List.replicate m c) s).length ≤ s.length := by
    intro N
    induction N with
    | zero =>
      intro s hs
      have hnil : s = [] := List.length_eq_zero.mp (by omega)
      subst hnil
      rw [collapseFrom_nil]
    | succ N ih =>
      intro s hs
      cases s with
      | nil => rw [collapseFrom_nil]
      | cons a rest =>
        by_cases hf : a = c ∧ k - 1 ≤ leadCount c rest
        · rw [collapseFrom_cons_fire c k _ a rest hf.1 hf.2]
          have hW : (rest.dropWhile (· = c)).length =
              rest.length - leadCount c rest := by
            rw [length_dropWhile_eq]
            rfl
          have h2 := ih (rest.dropWhile (· = c)) (by
            have := (List.dropWhile_sublist (l := rest) (fun x => decide (x = c))).length_le
            simp at hs
            omega)
          have h3 := hf.2
          have h4 : leadCount c rest ≤ rest.length :=
            (List.takeWhile_sublist (l := rest) (fun x => decide (x = c))).length_le
          simp only [List.length_append, List.length_replicate, List.length_cons]
          omega
        · rw [collapseFrom_cons_nofire c k _ a rest hf]
          have := ih rest (by simp at hs; omega)
          simp only [List.length_cons]
          omega
  exact key s.length s le_rfl

/-! Assembly of the idempotence result. -/

theorem bangCollapse_eq : bangCollapse = collapseFrom '!' 2 (List.replicate 1 '!') := rfl

theorem questionCollapse_eq :
    questionCollapse = collapseFrom '?' 2 (List.replicate 1 '?') := rfl

theorem dotCollapse_eq : dotCollapse = collapseFrom '.' 3 (List.replicate 3 '.') := rfl

theorem clean_text_unfold (u : Str) (hu : u ≠ []) :
    clean_text u = (pyReplace (pyReplace (pyReplace (dotCollapse (questionCollapse
      (bangCollapse (removeTags (collapseWs u))))) ['"'] ['"']) ['"'] ['"'])
      line72Pat [sq]).take 8000 := by
  rw [clean_text, if_neg hu]

/-- C8 amended: on inputs that are at most 8000 characters long and do not
contain `[` or `"`, text cleaning is idempotent: `clean(clean(s)) = clean(s)`.
(The exceptions are real: removing a `[removed]`/`[deleted]` marker can leave
a double blank that only a second pass collapses, and line 72's replacement
of the literal `, "'").replace(` — which contains a quote — can likewise
create new work for a second pass.) -/
theorem clean_text_idempotent_on (s : Str) (hbr : ('[' : Char) ∉ s)
    (hq : ('"' : Char) ∉ s) (hlen : s.length ≤ 8000) :
    clean_text (clean_text s) = clean_text s := by
  by_cases hnil : s = []
  · subst hnil
    rfl
  · have hbr1 : ('[' : Char) ∉ collapseWs s := by
      intro hmem
      rcases mem_collapseWs s _ hmem with h2 | h2
      · exact hbr h2
      · exact absurd h2 (by decide)
    have hq1 : ('"' : Char) ∉ collapseWs s := by
      intro hmem
      rcases mem_collapseWs s _ hmem with h2 | h2
      · exact hq h2
      · exact absurd h2 (by decide)
    have hrt : removeTags (collapseWs s) = collapseWs s := removeTags_id _ hbr1
    have hq3 : ('"' : Char) ∉ bangCollapse (collapseWs s) := by
      intro hmem
      rw [bangCollapse_eq] at hmem
      rcases mem_collapseFrom '!' 2 _ _ _ hmem with h2 | h2
      · exact hq1 h2
      · exact absurd h2 (by decide)
    have hq4 : ('"' : Char) ∉ questionCollapse (bangCollapse (collapseWs s)) := by
      intro hmem
      rw [questionCollapse_eq] at hmem
      rcases mem_collapseFrom '?' 2 _ _ _ hmem with h2 | h2
      · exact hq3 h2
      · exact absurd h2 (by decide)
    have hq5 : ('"' : Char) ∉
        dotCollapse (questionCollapse (bangCollapse (collapseWs s))) := by
      intro hmem
      rw [dotCollapse_eq] at hmem
      rcases mem_collapseFrom '.' 3 _ _ _ hmem with h2 | h2
      · exact hq4 h2
      · exact absurd h2 (by decide)
    have hbr3 : ('[' : Char) ∉ bangCollapse (collapseWs s) := by
      intro hmem
      rw [bangCollapse_eq] at hmem
      rcases mem_collapseFrom '!' 2 _ _ _ hmem with h2 | h2
      · exact hbr1 h2
      · exact absurd h2 (by decide)
    have hbr4 : ('[' : Char) ∉ questionCollapse (bangCollapse (collapseWs s)) := by
      intro hmem
      rw [questionCollapse_eq] at hmem
      rcases mem_collapseFrom '?' 2 _ _ _ hmem with h2 | h2
      · exact hbr3 h2
      · exact absurd h2 (by decide)
    have hbr5 : ('[' : Char) ∉
        dotCollapse (questionCollapse (bangCollapse (collapseWs s))) := by
      intro hmem
      rw [dotCollapse_eq] at hmem
      rcases mem_collapseFrom '.' 3 _ _ _ hmem with h2 | h2
      · exact hbr4 h2
      · exact absurd h2 (by decide)
    have hlen1 : (collapseWs s).length ≤ 8000 :=
      le_trans (length_collapseWs_le s) hlen
    have hlen3 : (bangCollapse (collapseWs s)).length ≤ 8000 := by
      rw [bangCollapse_eq]
      exact le_trans (length_collapseFrom_le '!' 2 1 (by omega) (by omega) _) hlen1
    have hlen4 : (questionCollapse (bangCollapse (collapseWs s))).length ≤ 8000 := by
      rw [questionCollapse_eq]
      exact le_trans (length_collapseFrom_le '?' 2 1 (by omega) (by omega) _) hlen3
    have hlen5 :
        (dotCollapse (questionCollapse (bangCollapse (collapseWs s)))).length ≤ 8000 := by
      rw [dotCollapse_eq]
      exact le_trans (length_collapseFrom_le '.' 3 3 (by omega) (by omega) _) hlen4
    have hfirst : clean_text s =
        dotCollapse (questionCollapse (bangCollapse (collapseWs s))) := by
      rw [clean_text_unfold s hnil, hrt, pyReplace_self, pyReplace_self,
        pyReplace_of_not_mem line72Pat [sq] '"' (by decide) _ hq5,
        List.take_of_length_le hlen5]
    rw [hfirst]
    by_cases hXnil : dotCollapse (questionCollapse (bangCollapse (collapseWs s))) = []
    · rw [hXnil]
      rfl
    · have hws1 := wsNormal_collapseWs s
      have hws3 : wsNormal (bangCollapse (collapseWs s)) := by
        rw [bangCollapse_eq]
        exact ⟨headOk_collapseFrom '!' 2 1 (by omega) _ hws1.1,
          tailOk_collapseFrom '!' 2 1 (by omega) (by decide) _ hws1.2⟩
      have hws4 : wsNormal (questionCollapse (bangCollapse (collapseWs s))) := by
        rw [questionCollapse_eq]
        exact ⟨headOk_collapseFrom '?' 2 1 (by omega) _ hws3.1,
          tailOk_collapseFrom '?' 2 1 (by omega) (by decide) _ hws3.2⟩
      have hws5 : wsNormal
          (dotCollapse (questionCollapse (bangCollapse (collapseWs s)))) := by
        rw [dotCollapse_eq]
        exact ⟨headOk_collapseFrom '.' 3 3 (by omega) _ hws4.1,
          tailOk_collapseFrom '.' 3 3 (by omega) (by decide) _ hws4.2⟩
      have hcwsX := collapseWs_id _ hws5
      have hrtX := removeTags_id _ hbr5
      have hnrBang :
          noLongRun '!' 2 (dotCollapse (questionCollapse (bangCollapse (collapseWs s)))) := by
        rw [dotCollapse_eq, questionCollapse_eq, bangCollapse_eq]
        exact noLongRun_collapseFrom_other '!' '.' 2 3 3 (by omega) (by omega) (by omega)
          (by decide) _
          (noLongRun_collapseFrom_other '!' '?' 2 2 1 (by omega) (by omega) (by omega)
            (by decide) _
            (noLongRun_collapseFrom_self '!' 2 1 (by omega) (by omega) (by omega) _))
      have hbang : bangCollapse
          (dotCollapse (questionCollapse (bangCollapse (collapseWs s)))) =
          dotCollapse (questionCollapse (bangCollapse (collapseWs s))) := by
        rw [bangCollapse_eq]
        exact collapseFrom_id_of_noLongRun '!' 2 _ _ hnrBang
      have hnrQ :
          noLongRun '?' 2 (dotCollapse (questionCollapse (bangCollapse (collapseWs s)))) := by
        rw [dotCollapse_eq, questionCollapse_eq]
        exact noLongRun_collapseFrom_other '?' '.' 2 3 3 (by omega) (by omega) (by omega)
          (by decide) _
          (noLongRun_collapseFrom_self '?' 2 1 (by omega) (by omega) (by omega) _)
      have hquest : questionCollapse
          (dotCollapse (questionCollapse (bangCollapse (collapseWs s)))) =
          dotCollapse (questionCollapse (bangCollapse (collapseWs s))) := by
        rw [questionCollapse_eq]
        exact collapseFrom_id_of_noLongRun '?' 2 _ _ hnrQ
      have hdot : dotCollapse
          (dotCollapse (questionCollapse (bangCollapse (collapseWs s)))) =
          dotCollapse (questionCollapse (bangCollapse (collapseWs s))) := by
        rw [dotCollapse_eq]
        exact collapseFrom_idem '.' 3 3 (by omega) (by omega) (by omega) _
      rw [clean_text_unfold _ hXnil, hcwsX, hrtX, hbang, hquest, hdot,
        pyReplace_self, pyReplace_self,
        pyReplace_of_not_mem line72Pat [sq] '"' (by decide) _ hq5,
        List.take_of_length_le hlen5]

/-- C8 amended witness: idempotence evaluated at a concrete bracket-free,
quote-free string. -/
theorem clean_text_idempotent_witness :
    clean_text (clean_text "  hi!!  there??? ....".toList) =
      clean_text "  hi!!  there??? ....".toList :=
  clean_text_idempotent_on _ (by decide) (by decide) (by decide)

end SMRag
